import Mathlib

/-!
Verification of the nacl-proxy repository: a shallow embedding of the
framed crypto stream (src/netnacl.c), the directional buffer (src/buf.c),
the readiness registry (src/event.c) and the connection lifecycle
(src/proxy.c), with theorems settling the frozen claims about them.

Bytes are `Nat` (the C stores them in `uint8_t`); 16-bit fields are `Nat`
with an explicit `% 65536` wherever the C's `uint16_t` arithmetic could
wrap.  Fallible socket reads and writes are driven by explicit event
scripts, so every definition is executable.
-/

set_option maxRecDepth 100000
set_option linter.unusedVariables false

namespace NaclProxy

/-- MAX_MESSAGE_LEN from netnacl.h: maximum plaintext payload per message. -/
def MAX_MESSAGE_LEN : Nat := 4096

/-- crypto_box_ZEROBYTES of the NaCl box primitive (leading zero region of the padded plaintext). -/
def crypto_box_ZEROBYTES : Nat := 32

/-- crypto_box_BOXZEROBYTES (leading zero region of the produced ciphertext). -/
def crypto_box_BOXZEROBYTES : Nat := 16

/-- crypto_box_NONCEBYTES. -/
def crypto_box_NONCEBYTES : Nat := 24

/-- sizeof(hdr_t): the packed wire header is a 16-bit length followed by a 24-byte nonce. -/
def hdrSize : Nat := 26

/-- Physical size of the fixed receive buffers recv_ct and recv_pt in struct netnacl_t:
crypto_box_ZEROBYTES + MAX_MESSAGE_LEN = 4128 bytes. -/
def RECV_CAP : Nat := crypto_box_ZEROBYTES + MAX_MESSAGE_LEN

/-- Physical size of the fixed send buffer in struct netnacl_t:
sizeof(hdr_t) + crypto_box_ZEROBYTES + MAX_MESSAGE_LEN = 4154 bytes. -/
def SEND_CAP : Nat := hdrSize + crypto_box_ZEROBYTES + MAX_MESSAGE_LEN

/-- NN_DISCONNECT from netnacl.h. -/
def NN_DISCONNECT : Int := -5

/-- NN_CRYPTO_ERR from netnacl.h. -/
def NN_CRYPTO_ERR : Int := -4

/-- NN_ERR from netnacl.h. -/
def NN_ERR : Int := -1

/-- NN_SUCCESS from netnacl.h. -/
def NN_SUCCESS : Int := 0

/-- Modelled from the spec: NN_WOULD_BLOCK is used by netnacl.c and buf.c but its
defining header (errors.h) is not under src/.  Per the spec's error taxonomy it is
a code distinct from the others; the value -6 is one such choice. -/
def NN_WOULD_BLOCK : Int := -6

/-- Modelled from the spec: the PROXY_* status codes of errors.h, which is not under
src/.  Per the spec (sections 4.2 and 7) they form a taxonomy of distinct codes with
success = 0; event_run_loop treats any non-zero callback status as fatal. -/
def PROXY_SUCCESS : Int := 0

/-- Modelled from the spec: generic fatal error code of errors.h (see PROXY_SUCCESS). -/
def PROXY_ERR : Int := -1

/-- Modelled from the spec: would-block code of errors.h (see PROXY_SUCCESS). -/
def PROXY_WOULD_BLOCK : Int := -2

/-- Modelled from the spec: disconnect code of errors.h (see PROXY_SUCCESS). -/
def PROXY_DISCONNECT : Int := -3

/-- Modelled from the spec: registry-full code of errors.h (see PROXY_SUCCESS). -/
def PROXY_MAX_EVENTS : Int := -4

/-- Modelled from the spec: transient accept failure code of errors.h (see PROXY_SUCCESS). -/
def PROXY_INCOMPLETE_ACCEPT : Int := -5

/-- Modelled from the spec: upstream connect failure code of errors.h (see PROXY_SUCCESS). -/
def PROXY_CONNECT_ERR : Int := -6

/-- Write the byte list `bs` into `buf` starting at byte offset `off`, keeping
`buf`'s length: the part of `bs` that falls beyond the end of `buf` is not stored
(the C writes it out of bounds; `oobAmount` counts those bytes). -/
def writeAt (buf : List Nat) (off : Nat) (bs : List Nat) : List Nat :=
  buf.take off ++ bs.take (buf.length - off) ++ buf.drop (off + bs.length)

/-- Number of bytes of a write of `n` bytes at offset `off` that land at or past
index `cap`, i.e. outside a buffer of capacity `cap`. -/
def oobAmount (cap off n : Nat) : Nat := off + n - max off cap

/-- Modelled from the spec: the 16-byte authenticator of the authenticated box.
tweetnacl is not under src/; the spec (section 4.4 and glossary) specifies only the
primitive's contract, so any keyed function of key and nonce serves as the model MAC. -/
def boxMac (key : Nat) (nonce : List Nat) : List Nat :=
  (List.range crypto_box_BOXZEROBYTES).map fun i => (key + nonce.sum + i) % 256

/-- Modelled from the spec: crypto_box_afternm (tweetnacl, not under src/).  Per the
spec's contract the input is the padded plaintext with a 32-byte leading zero region
and the output is a same-length ciphertext with a 16-byte leading zero region; the
model keeps the payload in the clear after the authenticator, which realises exactly
the lengths and the open/seal round trip the spec states. -/
def crypto_box_afternm (key : Nat) (nonce : List Nat) (m : List Nat) : List Nat :=
  List.replicate crypto_box_BOXZEROBYTES 0 ++ boxMac key nonce ++ m.drop crypto_box_ZEROBYTES

/-- Modelled from the spec: crypto_box_open_afternm (tweetnacl, not under src/).
Fails (returns none) for a ciphertext shorter than 32 bytes or whose leading zero
region or authenticator does not verify, exactly the contract the spec names. -/
def crypto_box_open_afternm (key : Nat) (nonce : List Nat) (c : List Nat) : Option (List Nat) :=
  if crypto_box_ZEROBYTES ≤ c.length ∧
      c.take crypto_box_BOXZEROBYTES = List.replicate crypto_box_BOXZEROBYTES 0 ∧
      (c.drop crypto_box_BOXZEROBYTES).take crypto_box_BOXZEROBYTES = boxMac key nonce then
    some (List.replicate crypto_box_ZEROBYTES 0 ++ c.drop crypto_box_ZEROBYTES)
  else
    none

/-- struct netnacl_t of netnacl.c.  The raw 26 bytes of the recv_hdr field are
`recv_hdr_raw`; `recv_hdr_len` is the value of its len field once recv_hdr()
has applied ntohs (the code reads the field only after that point, and memsets
it to zero on reset).  The `*_oob` fields are ghost counters of bytes the C
would have written outside the corresponding fixed-size buffer. -/
structure NN where
  hdr_bytes_recvd : Nat
  ct_bytes_recvd : Nat
  sym_key : Nat
  recv_hdr_raw : List Nat
  recv_hdr_len : Nat
  recv_ct : List Nat
  recv_pt : List Nat
  recv_pt_pos : Nat
  recv_pt_len : Nat
  send_buf_len : Nat
  send_buf_pos : Nat
  send_buf : List Nat
  hdr_oob : Nat
  ct_oob : Nat
  pt_oob : Nat
  deriving DecidableEq

/-- The zeroed netnacl_t that netnacl_wrap's calloc produces, with the derived
shared symmetric key filled in. -/
def netnacl_init (key : Nat) : NN where
  hdr_bytes_recvd := 0
  ct_bytes_recvd := 0
  sym_key := key
  recv_hdr_raw := List.replicate hdrSize 0
  recv_hdr_len := 0
  recv_ct := List.replicate RECV_CAP 0
  recv_pt := List.replicate RECV_CAP 0
  recv_pt_pos := 0
  recv_pt_len := 0
  send_buf_len := 0
  send_buf_pos := 0
  send_buf := List.replicate SEND_CAP 0
  hdr_oob := 0
  ct_oob := 0
  pt_oob := 0

/-- One outcome the non-blocking recv(2) call can produce: a chunk of arriving
bytes, EAGAIN/EWOULDBLOCK, clean EOF, or another errno. -/
inductive RecvEv where
  | more (bs : List Nat)
  | block
  | eof
  | fail
  deriving DecidableEq

/-- The receive side of a socket: bytes already available to read, then the
scripted outcomes of the subsequent recv(2) calls.  An exhausted script behaves
as a socket with nothing to read (EAGAIN). -/
structure RSock where
  queued : List Nat
  evs : List RecvEv
  deriving DecidableEq

/-- Result of one recv(2) call against an RSock. -/
inductive RRes where
  | got (bs : List Nat)
  | block
  | eof
  | fail
  deriving DecidableEq

/-- One recv(2) call asking for `want` bytes: drains the available bytes first,
otherwise takes the next scripted outcome. -/
def rsockRecv (s : RSock) (want : Nat) : RRes × RSock :=
  if s.queued ≠ [] then
    (RRes.got (s.queued.take want), ⟨s.queued.drop want, s.evs⟩)
  else
    match s.evs with
    | [] => (RRes.block, s)
    | RecvEv.more bs :: rest => (RRes.got (bs.take want), ⟨bs.drop want, rest⟩)
    | RecvEv.block :: rest => (RRes.block, ⟨s.queued, rest⟩)
    | RecvEv.eof :: rest => (RRes.eof, ⟨s.queued, rest⟩)
    | RecvEv.fail :: rest => (RRes.fail, ⟨s.queued, rest⟩)

/-- Termination measure weight of one scripted recv outcome. -/
def evWeight : RecvEv → Nat
  | RecvEv.more bs => bs.length + 1
  | _ => 1

/-- Termination measure of an RSock: every recv(2) call that returns bytes
consumes from it. -/
def rsockWeight (s : RSock) : Nat := s.queued.length + (s.evs.map evWeight).sum

/-- recv_hdr of netnacl.c: accumulate bytes into the header until all
sizeof(hdr_t) are present, then convert len from network byte order.  The C
writes each chunk at `&p_nn->recv_hdr + p_nn->hdr_bytes_recvd`, which pointer
arithmetic scales by sizeof(hdr_t): the model writes at byte offset
hdrSize * hdr_bytes_recvd, so a chunk arriving when hdr_bytes_recvd > 0 misses
the header region entirely (counted in hdr_oob). -/
def recv_hdr (nn : NN) (sock : RSock) : Int × NN × RSock :=
  if h : nn.hdr_bytes_recvd < hdrSize then
    match hrec : rsockRecv sock (hdrSize - nn.hdr_bytes_recvd) with
    | (RRes.block, s2) => (NN_WOULD_BLOCK, nn, s2)
    | (RRes.fail, s2) => (NN_ERR, nn, s2)
    | (RRes.eof, s2) => (NN_DISCONNECT, nn, s2)
    | (RRes.got bs, s2) =>
      if bs = [] then (NN_DISCONNECT, nn, s2)
      else
        recv_hdr
          { nn with
              recv_hdr_raw := writeAt nn.recv_hdr_raw (hdrSize * nn.hdr_bytes_recvd) bs
              hdr_oob := nn.hdr_oob + oobAmount hdrSize (hdrSize * nn.hdr_bytes_recvd) bs.length
              hdr_bytes_recvd := nn.hdr_bytes_recvd + bs.length }
          s2
  else
    (NN_SUCCESS,
      { nn with recv_hdr_len := (256 * nn.recv_hdr_raw.getD 0 0 + nn.recv_hdr_raw.getD 1 0) % 65536 },
      sock)
termination_by rsockWeight sock
decreasing_by
  simp only [rsockRecv] at hrec
  by_cases hq : sock.queued = []
  · simp only [hq, ne_eq, not_true_eq_false, if_false] at hrec
    rcases hevs : sock.evs with - | ⟨e, rest⟩ <;> rw [hevs] at hrec
    · exact absurd hrec (by simp)
    · cases e with
      | more bs2 =>
        simp only [Prod.mk.injEq, RRes.got.injEq] at hrec
        obtain ⟨-, h2⟩ := hrec
        subst h2
        simp [rsockWeight, hq, hevs, evWeight]
        omega
      | block => exact absurd hrec (by simp)
      | eof => exact absurd hrec (by simp)
      | fail => exact absurd hrec (by simp)
  · simp only [hq, ne_eq, not_false_eq_true, if_true, Prod.mk.injEq, RRes.got.injEq] at hrec
    obtain ⟨-, h2⟩ := hrec
    subst h2
    have hql : 0 < sock.queued.length := List.length_pos.mpr hq
    simp [rsockWeight, List.length_drop]
    omega

/-- recv_ciphertext of netnacl.c: accumulate recv_hdr.len bytes of ciphertext
at recv_ct + ct_bytes_recvd.  The code never validates recv_hdr.len against the
4128-byte capacity of recv_ct; ct_oob counts the bytes written out of bounds. -/
def recv_ciphertext (nn : NN) (sock : RSock) : Int × NN × RSock :=
  if h : nn.ct_bytes_recvd < nn.recv_hdr_len then
    match hrec : rsockRecv sock (nn.recv_hdr_len - nn.ct_bytes_recvd) with
    | (RRes.block, s2) => (NN_WOULD_BLOCK, nn, s2)
    | (RRes.fail, s2) => (NN_ERR, nn, s2)
    | (RRes.eof, s2) => (NN_DISCONNECT, nn, s2)
    | (RRes.got bs, s2) =>
      if bs = [] then (NN_DISCONNECT, nn, s2)
      else
        recv_ciphertext
          { nn with
              recv_ct := writeAt nn.recv_ct nn.ct_bytes_recvd bs
              ct_oob := nn.ct_oob + oobAmount RECV_CAP nn.ct_bytes_recvd bs.length
              ct_bytes_recvd := nn.ct_bytes_recvd + bs.length }
          s2
  else
    (NN_SUCCESS, nn, sock)
termination_by rsockWeight sock
decreasing_by
  simp only [rsockRecv] at hrec
  by_cases hq : sock.queued = []
  · simp only [hq, ne_eq, not_true_eq_false, if_false] at hrec
    rcases hevs : sock.evs with - | ⟨e, rest⟩ <;> rw [hevs] at hrec
    · exact absurd hrec (by simp)
    · cases e with
      | more bs2 =>
        simp only [Prod.mk.injEq, RRes.got.injEq] at hrec
        obtain ⟨-, h2⟩ := hrec
        subst h2
        simp [rsockWeight, hq, hevs, evWeight]
        omega
      | block => exact absurd hrec (by simp)
      | eof => exact absurd hrec (by simp)
      | fail => exact absurd hrec (by simp)
  · simp only [hq, ne_eq, not_false_eq_true, if_true, Prod.mk.injEq, RRes.got.injEq] at hrec
    obtain ⟨-, h2⟩ := hrec
    subst h2
    have hql : 0 < sock.queued.length := List.length_pos.mpr hq
    simp [rsockWeight, List.length_drop]
    omega

/-- The 24 nonce bytes of the received header, as decrypt_ciphertext reads them. -/
def nonceOf (nn : NN) : List Nat := nn.recv_hdr_raw.drop 2

/-- decrypt_ciphertext of netnacl.c: authenticated-open recv_ct into recv_pt,
set recv_pt_len = recv_hdr.len - crypto_box_ZEROBYTES (uint16 arithmetic), then
memmove the plaintext over its 32-byte leading zero region. -/
def decrypt_ciphertext (nn : NN) : Int × NN :=
  match crypto_box_open_afternm nn.sym_key (nonceOf nn) (nn.recv_ct.take nn.recv_hdr_len) with
  | none => (NN_CRYPTO_ERR, nn)
  | some m =>
    let nn2 :=
      { nn with
          recv_pt := writeAt nn.recv_pt 0 m
          pt_oob := nn.pt_oob + oobAmount RECV_CAP 0 nn.recv_hdr_len
          recv_pt_len := (nn.recv_hdr_len + 65536 - crypto_box_ZEROBYTES) % 65536 }
    (NN_SUCCESS,
      { nn2 with
          recv_pt :=
            (nn2.recv_pt.drop crypto_box_ZEROBYTES).take nn2.recv_pt_len ++
              nn2.recv_pt.drop nn2.recv_pt_len })

/-- copy_plaintext_to_buffer of netnacl.c.  Note the code computes
read_sz = MIN(recv_pt_len, len) — the whole message length, not the remaining
recv_pt_len - recv_pt_pos — and only afterwards checks its
ASSERT_RET(recv_pt_pos <= recv_pt_len), which returns -1 (NDEBUG) once the
position has already been advanced past the end. -/
def copy_plaintext_to_buffer (nn : NN) (len : Nat) : Int × List Nat × NN :=
  let read_sz := min nn.recv_pt_len len
  let out := (nn.recv_pt.drop nn.recv_pt_pos).take read_sz
  let nn2 := { nn with recv_pt_pos := (nn.recv_pt_pos + read_sz) % 65536 }
  if nn2.recv_pt_pos ≤ nn2.recv_pt_len then
    if nn2.recv_pt_pos = nn2.recv_pt_len then
      (Int.ofNat read_sz, out,
        { nn2 with
            recv_hdr_raw := List.replicate hdrSize 0
            recv_hdr_len := 0
            recv_pt := List.replicate RECV_CAP 0
            recv_ct := List.replicate RECV_CAP 0
            recv_pt_len := 0
            recv_pt_pos := 0
            hdr_bytes_recvd := 0
            ct_bytes_recvd := 0 })
    else
      (Int.ofNat read_sz, out, nn2)
  else
    (-1, out, nn2)

/-- What one netnacl_recv call returns: the ssize_t result, the bytes written
into the caller's buffer, and the updated stream and socket states. -/
structure RecvOut where
  ret : Int
  out : List Nat
  nn : NN
  sock : RSock
  deriving DecidableEq

/-- The EXIT label of netnacl_recv: NN_DISCONNECT is mapped to 0 to match
plain recv(2) semantics when the remote end hangs up. -/
def nnExit (r : Int) (out : List Nat) (nn : NN) (sock : RSock) : RecvOut :=
  ⟨if r = NN_DISCONNECT then 0 else r, out, nn, sock⟩

/-- netnacl_recv of netnacl.c: the four sequential sub-phases (header
accumulation, ciphertext accumulation, decrypt, drain), each guarded on the
state the previous phase left, with any non-success short-circuiting to EXIT. -/
def netnacl_recv (nn0 : NN) (sock0 : RSock) (len : Nat) : RecvOut :=
  let s1 := if nn0.hdr_bytes_recvd < hdrSize then recv_hdr nn0 sock0 else (NN_SUCCESS, nn0, sock0)
  if s1.1 ≠ NN_SUCCESS then nnExit s1.1 [] s1.2.1 s1.2.2
  else
    let nn1 := s1.2.1
    let sock1 := s1.2.2
    let s2 :=
      if nn1.hdr_bytes_recvd = hdrSize ∧ nn1.ct_bytes_recvd < nn1.recv_hdr_len then
        recv_ciphertext nn1 sock1
      else (NN_SUCCESS, nn1, sock1)
    if s2.1 ≠ NN_SUCCESS then nnExit s2.1 [] s2.2.1 s2.2.2
    else
      let nn2 := s2.2.1
      let sock2 := s2.2.2
      let s3 :=
        if nn2.hdr_bytes_recvd = hdrSize ∧ nn2.ct_bytes_recvd = nn2.recv_hdr_len ∧
            nn2.recv_pt_len = 0 then
          decrypt_ciphertext nn2
        else (NN_SUCCESS, nn2)
      if s3.1 ≠ NN_SUCCESS then nnExit s3.1 [] s3.2 sock2
      else
        let nn3 := s3.2
        if nn3.hdr_bytes_recvd = hdrSize ∧ nn3.ct_bytes_recvd = nn3.recv_hdr_len ∧
            0 < nn3.recv_pt_len then
          let c := copy_plaintext_to_buffer nn3 len
          nnExit c.1 c.2.1 c.2.2 sock2
        else
          nnExit NN_SUCCESS [] nn3 sock2

/-- One outcome the non-blocking send(2) call can produce: the kernel accepts
up to `n` bytes, EAGAIN/EWOULDBLOCK, or another errno. -/
inductive SendEv where
  | accept (n : Nat)
  | block
  | fail
  deriving DecidableEq

/-- The send side of a socket: the scripted outcomes of successive send(2)
calls.  An exhausted script behaves as a full kernel buffer (EAGAIN). -/
structure SSock where
  evs : List SendEv
  deriving DecidableEq

/-- encrypt_plaintext of netnacl.c: draw a fresh 24-byte nonce from the CSPRNG
stream `f` at position `pos`, truncate the caller's bytes to MAX_MESSAGE_LEN,
pad with the 32-byte leading zero region, encrypt into send_buf after the
header, then write the header (len in network byte order) at the start of
send_buf.  Returns the updated state and the advanced CSPRNG position.  The C
takes the caller's buffer and a length; a valid caller passes len = length of
the buffer, so the model takes `buf` alone. -/
def encrypt_plaintext (nn : NN) (buf : List Nat) (f : Nat → Nat) (pos : Nat) : NN × Nat :=
  let nonce := (List.range crypto_box_NONCEBYTES).map fun i => f (pos + i) % 256
  let pt_len := min buf.length MAX_MESSAGE_LEN
  let padded_pt_len := pt_len + crypto_box_ZEROBYTES
  let hdr_len := pt_len + crypto_box_ZEROBYTES
  let pt_buf :=
    List.replicate crypto_box_ZEROBYTES 0 ++ buf.take pt_len ++
      List.replicate (MAX_MESSAGE_LEN - pt_len) 0
  let ct := crypto_box_afternm nn.sym_key nonce (pt_buf.take padded_pt_len)
  let sb := writeAt nn.send_buf hdrSize ct
  ({ nn with
      send_buf_len := hdr_len + hdrSize
      send_buf := writeAt sb 0 ([hdr_len / 256 % 256, hdr_len % 256] ++ nonce) },
    pos + crypto_box_NONCEBYTES)

/-- What one netnacl_send (or send_ciphertext) call produces: the ssize_t
result, the updated stream and socket states, and the bytes actually written
to the wire by this call. -/
structure SendOut where
  ret : Int
  nn : NN
  sock : SSock
  wire : List Nat
  deriving DecidableEq

/-- send_ciphertext of netnacl.c: drain send_buf_len - send_buf_pos bytes to
the socket; on full drain zero the pending buffer, reset both counters and
return MIN(len, MAX_MESSAGE_LEN) — the plaintext bytes consumed. -/
def send_ciphertext (nn : NN) (len : Nat) (sock : SSock) : SendOut :=
  if h : nn.send_buf_pos < nn.send_buf_len then
    match hevs : sock.evs with
    | [] => ⟨NN_WOULD_BLOCK, nn, ⟨[]⟩, []⟩
    | SendEv.block :: rest => ⟨NN_WOULD_BLOCK, nn, ⟨rest⟩, []⟩
    | SendEv.fail :: rest => ⟨NN_ERR, nn, ⟨rest⟩, []⟩
    | SendEv.accept n :: rest =>
      let sent := min n (nn.send_buf_len - nn.send_buf_pos)
      let chunk := (nn.send_buf.drop nn.send_buf_pos).take sent
      let r := send_ciphertext { nn with send_buf_pos := nn.send_buf_pos + sent } len ⟨rest⟩
      ⟨r.ret, r.nn, r.sock, chunk ++ r.wire⟩
  else
    ⟨Int.ofNat (min len MAX_MESSAGE_LEN),
      { nn with
          send_buf := writeAt nn.send_buf 0 (List.replicate nn.send_buf_len 0)
          send_buf_len := 0
          send_buf_pos := 0 },
      sock, []⟩
termination_by sock.evs.length
decreasing_by simp [*]

/-- What one netnacl_send call produces, together with the CSPRNG position
after it (advanced exactly when a fresh nonce was drawn). -/
structure SendTop where
  ret : Int
  nn : NN
  sock : SSock
  wire : List Nat
  rng : Nat
  deriving DecidableEq

/-- netnacl_send of netnacl.c: assemble a fresh message (nonce, header,
ciphertext) only when no pending message exists (send_buf_len == 0), then
drain the pending buffer. -/
def netnacl_send (nn0 : NN) (buf : List Nat) (sock : SSock) (f : Nat → Nat) (pos : Nat) :
    SendTop :=
  let e := if nn0.send_buf_len = 0 then encrypt_plaintext nn0 buf f pos else (nn0, pos)
  let nn1 := e.1
  if nn1.send_buf_pos < nn1.send_buf_len then
    let r := send_ciphertext nn1 buf.length sock
    ⟨r.ret, r.nn, r.sock, r.wire, e.2⟩
  else
    ⟨0, nn1, sock, [], e.2⟩

/-- Number of framed messages a plaintext of `n` bytes needs: each message
carries up to MAX_MESSAGE_LEN bytes. -/
def numChunks (n : Nat) : Nat := (n + (MAX_MESSAGE_LEN - 1)) / MAX_MESSAGE_LEN

/-- Driver for the round-trip law: re-invoke netnacl_send, each time over a
socket that accepts everything, dropping the bytes each call reports consumed,
for `fuel` calls.  Returns the concatenated wire bytes and the plaintext still
unconsumed. -/
def sendLoop : Nat → NN → (Nat → Nat) → Nat → List Nat → List Nat × List Nat
  | 0, _, _, _, p => ([], p)
  | fuel + 1, nn, f, pos, p =>
    if p = [] then ([], p)
    else
      let r := netnacl_send nn p ⟨[SendEv.accept SEND_CAP]⟩ f pos
      let rest := sendLoop fuel r.nn f r.rng (p.drop r.ret.toNat)
      (r.wire ++ rest.1, rest.2)

/-- Driver for the round-trip law: re-invoke netnacl_recv with a full-message
request until it stops reporting bytes, concatenating everything returned. -/
def recvLoop : Nat → NN → RSock → List Nat
  | 0, _, _ => []
  | fuel + 1, nn, sock =>
    let r := netnacl_recv nn sock MAX_MESSAGE_LEN
    if 0 < r.ret then r.out ++ recvLoop fuel r.nn r.sock else []

/-- The wire image of one framed message: 16-bit big-endian length, the
24-byte nonce, then the full ciphertext of the zero-padded plaintext `c`. -/
def mkMsg (key : Nat) (nonce : List Nat) (c : List Nat) : List Nat :=
  [(c.length + crypto_box_ZEROBYTES) / 256 % 256, (c.length + crypto_box_ZEROBYTES) % 256] ++
    nonce ++ crypto_box_afternm key nonce (List.replicate crypto_box_ZEROBYTES 0 ++ c)

/-- The 24-byte nonce encrypt_plaintext draws from CSPRNG stream `f` at
position `pos`. -/
def nonceAt (f : Nat → Nat) (pos : Nat) : List Nat :=
  (List.range crypto_box_NONCEBYTES).map fun i => f (pos + i) % 256

/-! ## The directional buffer (buf.c) -/

/-- BUF_SIZ from buf.h. -/
def BUF_SIZ : Nat := 16348

/-- Ghost classification of how the buf_recv loop stopped: buffer full,
endpoint would-block, clean EOF, or another error. -/
inductive BStop where
  | full
  | blocked
  | eofStop
  | errStop
  deriving DecidableEq

/-- The loop of buf_recv in buf.c, driven by the scripted outcomes of the
endpoint's successive recv calls (plain recv(2) or netnacl_recv — buf.c
classifies both the same way): read until the buffer is full or the endpoint
stops yielding bytes.  `none` means the script ended before the loop did. -/
def buf_recv_loop : List RecvEv → Nat → Option (Int × Nat × BStop)
  | evs, size =>
    if BUF_SIZ ≤ size then some (PROXY_SUCCESS, size, BStop.full)
    else
      match evs with
      | [] => none
      | RecvEv.more bs :: rest =>
        if bs = [] then some (PROXY_DISCONNECT, size, BStop.eofStop)
        else buf_recv_loop rest (size + min bs.length (BUF_SIZ - size))
      | RecvEv.block :: _ =>
        if size = 0 then some (PROXY_WOULD_BLOCK, size, BStop.blocked)
        else some (PROXY_SUCCESS, size, BStop.blocked)
      | RecvEv.eof :: _ => some (PROXY_DISCONNECT, size, BStop.eofStop)
      | RecvEv.fail :: _ => some (PROXY_ERR, size, BStop.errStop)

/-- buf_recv of buf.c under its precondition (ASSERT_RET(read_pos == 0) and
ASSERT_RET(size == 0)): the loop starts from an empty buffer. -/
def buf_recv (evs : List RecvEv) : Option (Int × Nat × BStop) :=
  buf_recv_loop evs 0

/-! ## The accept path (proxy.c handle_accept / accept_callback) -/

/-- ECONNABORTED on Linux (asm-generic/errno.h, which proxy.c includes). -/
def ECONNABORTED : Nat := 103

/-- EAGAIN on Linux. -/
def EAGAIN : Nat := 11

/-- EWOULDBLOCK on Linux (same value as EAGAIN). -/
def EWOULDBLOCK : Nat := 11

/-- The status handle_accept computes when accept(2) fails with the given
errno (proxy.c lines 176-185): note the code combines the three transient
errno tests with logical-and. -/
def handle_accept_fail (errno : Nat) : Int :=
  if errno = ECONNABORTED ∧ errno = EAGAIN ∧ errno = EWOULDBLOCK then PROXY_INCOMPLETE_ACCEPT
  else PROXY_ERR

/-- The CLEANUP filter of accept_callback (proxy.c lines 161-166): only
PROXY_MAX_EVENTS, PROXY_INCOMPLETE_ACCEPT and PROXY_CONNECT_ERR are downgraded
to PROXY_SUCCESS so the listener keeps running; anything else propagates and
event_run_loop (event.c lines 130-136) exits with it. -/
def accept_callback_err (err : Int) : Int :=
  if err = PROXY_MAX_EVENTS ∨ err = PROXY_INCOMPLETE_ACCEPT ∨ err = PROXY_CONNECT_ERR then
    PROXY_SUCCESS
  else err

/-- What accept_callback returns, and whether it freed the connection context,
when accept(2) fails with the given errno: handle_accept classifies the errno,
the CLEANUP path frees the context (FREE_AND_NULL) and filters the status. -/
def accept_callback_fail (errno : Nat) : Int × Bool :=
  (accept_callback_err (handle_accept_fail errno), true)

/-! ## The connection lifecycle (proxy.c): registry entries, refcount, free -/

/-- Ghost phase of one connection context, following proxy.c's state machine. -/
inductive CPhase where
  | unalloc
  | pending
  | wired
  | halfclosed
  | closed
  deriving DecidableEq

/-- The observable lifecycle state of one connection context: how many live
registry entries hold a pointer to it, its conn_t.ref field, how many times
free(p_conn) has executed, and whether the allocation is still live. -/
structure CCtx where
  phase : CPhase
  entries : Nat
  ref : Nat
  freedCnt : Nat
  alive : Bool
  deriving DecidableEq

/-- free_connection of proxy.c: free the context when ref <= 1, else decrement. -/
def free_connection (c : CCtx) : CCtx :=
  if c.ref ≤ 1 then { c with freedCnt := c.freedCnt + 1, alive := false }
  else { c with ref := c.ref - 1 }

/-- add_connection_events of proxy.c (success path): two event_add calls each
followed by ref++. -/
def add_connection_events (c : CCtx) : CCtx :=
  { c with entries := c.entries + 2, ref := c.ref + 2 }

/-- close_connection of proxy.c: event_remove both sockets, set ref = 0, call
free_connection (which then frees). -/
def close_connection (c : CCtx) : CCtx :=
  free_connection { c with entries := 0, ref := 0, phase := CPhase.closed }

/-- event_teardown's effect on one context (proxy_run's CLEANUP): one
free_connection call per live registry entry holding this context. -/
def event_teardown_ctx (c : CCtx) : CCtx :=
  free_connection^[c.entries] { c with entries := 0, phase := CPhase.closed }

/-- The freshly considered (not yet allocated) context. -/
def CInit : CCtx := ⟨CPhase.unalloc, 0, 0, 0, true⟩

/-- The registry/refcount transitions proxy.c performs on one connection
context: accept with immediate upstream connect (add_connection_events),
accept with in-progress connect (one pending-connect entry, no ref++),
pending-connect completion (event_remove then add_connection_events),
half-close in handle_recv (event_remove without touching ref),
close_connection from any live phase, and the driver's teardown. -/
inductive CStep : CCtx → CCtx → Prop where
  | accept_immediate (c : CCtx) (h : c.phase = CPhase.unalloc) :
      CStep c (add_connection_events { c with phase := CPhase.wired })
  | accept_pending (c : CCtx) (h : c.phase = CPhase.unalloc) :
      CStep c { c with phase := CPhase.pending, entries := c.entries + 1 }
  | pending_complete (c : CCtx) (h : c.phase = CPhase.pending) :
      CStep c (add_connection_events { c with phase := CPhase.wired, entries := c.entries - 1 })
  | half_close (c : CCtx) (h : c.phase = CPhase.wired) :
      CStep c { c with phase := CPhase.halfclosed, entries := c.entries - 1 }
  | conn_close (c : CCtx)
      (h : c.phase = CPhase.pending ∨ c.phase = CPhase.wired ∨ c.phase = CPhase.halfclosed) :
      CStep c (close_connection c)
  | teardown (c : CCtx)
      (h : c.phase = CPhase.pending ∨ c.phase = CPhase.wired ∨ c.phase = CPhase.halfclosed) :
      CStep c (event_teardown_ctx c)

/-- States of one connection context reachable from allocation through
proxy.c's handlers. -/
inductive CReach : CCtx → Prop where
  | init : CReach CInit
  | step (c c2 : CCtx) (hr : CReach c) (hs : CStep c c2) : CReach c2

/-- The phase-dependent entries/ref/freed invariant one connection context
actually maintains (see the C6 theorems). -/
def CInv (c : CCtx) : Bool :=
  match c.phase with
  | CPhase.unalloc => c.entries == 0 && c.ref == 0 && c.freedCnt == 0 && c.alive
  | CPhase.pending => c.entries == 1 && c.ref == 0 && c.freedCnt == 0 && c.alive
  | CPhase.wired => c.entries == 2 && c.ref == 2 && c.freedCnt == 0 && c.alive
  | CPhase.halfclosed => c.entries == 1 && c.ref == 2 && c.freedCnt == 0 && c.alive
  | CPhase.closed =>
      c.entries == 0 &&
        ((c.freedCnt == 1 && !c.alive) || (c.freedCnt == 0 && c.alive && c.ref == 1))

/-- The finitely many lifecycle states one connection context can reach. -/
def CStates : List CCtx :=
  [CInit, ⟨CPhase.pending, 1, 0, 0, true⟩, ⟨CPhase.wired, 2, 2, 0, true⟩,
   ⟨CPhase.halfclosed, 1, 2, 0, true⟩, ⟨CPhase.closed, 0, 0, 1, false⟩,
   ⟨CPhase.closed, 0, 1, 1, false⟩, ⟨CPhase.closed, 0, 1, 0, true⟩]

/-! ## The readiness registry (event.c) -/

/-- MAX_EVENTS from event.h. -/
def MAX_EVENTS : Nat := 512

/-- The registry state g_mgr of event.c: the fd of each of the MAX_EVENTS + 1
pollfd slots (the events array mirrors it), the high-water index and the
count.  `regd` is a ghost list of the descriptors added and not yet removed or
torn down.  The code consults only slots below max_idx (every scan and the
poll() call are bounded by it), so slots at or above max_idx keep their
initial zeros without being read. -/
structure Reg where
  pfds : List Int
  max_idx : Nat
  num_events : Nat
  regd : List Nat
  deriving DecidableEq

/-- The zero-initialised g_mgr. -/
def regInit : Reg := ⟨List.replicate (MAX_EVENTS + 1) 0, 0, 0, []⟩

/-- get_idx_from_fd of event.c: first slot below max_idx holding this fd. -/
def get_idx_from_fd (r : Reg) (efd : Nat) : Option Nat :=
  (List.range r.max_idx).find? fun i => r.pfds.getD i (-1) = (efd : Int)

/-- The insert scan of event_add: first dead slot below max_idx. -/
def findDead (r : Reg) : Option Nat :=
  (List.range r.max_idx).find? fun i => r.pfds.getD i (-1) = -1

/-- event_add of event.c: reject duplicates and a full registry, reuse the
first dead slot or extend the high-water mark. -/
def event_add (r : Reg) (efd : Nat) : Int × Reg :=
  if (get_idx_from_fd r efd).isSome then (PROXY_ERR, r)
  else if r.num_events = MAX_EVENTS then (PROXY_MAX_EVENTS, r)
  else
    let idx := (findDead r).getD r.max_idx
    let max2 := if (findDead r).isSome then r.max_idx else r.max_idx + 1
    (PROXY_SUCCESS,
      { pfds := r.pfds.set idx (efd : Int)
        max_idx := max2
        num_events := r.num_events + 1
        regd := efd :: r.regd })

/-- event_modify of event.c: for an existing fd it rewrites the slot's fd (to
the same value) and interest mask; a missing fd is an error without change. -/
def event_modify (r : Reg) (efd : Nat) : Int × Reg :=
  match get_idx_from_fd r efd with
  | none => (PROXY_ERR, r)
  | some idx => (PROXY_SUCCESS, { r with pfds := r.pfds.set idx (efd : Int) })

/-- event_remove of event.c: clear the slot, decrement max_idx only when the
last slot was removed, decrement num_events. -/
def event_remove (r : Reg) (efd : Nat) : Int × Reg :=
  match get_idx_from_fd r efd with
  | none => (PROXY_ERR, r)
  | some idx =>
    (PROXY_SUCCESS,
      { pfds := r.pfds.set idx (-1)
        max_idx := if idx = r.max_idx - 1 then r.max_idx - 1 else r.max_idx
        num_events := r.num_events - 1
        regd := r.regd.erase efd })

/-- event_teardown of event.c: mark every slot below max_idx dead.  It resets
neither num_events nor max_idx. -/
def event_teardown (r : Reg) : Reg :=
  { pfds := (List.range r.pfds.length).map fun i => if i < r.max_idx then -1 else r.pfds.getD i (-1)
    max_idx := r.max_idx
    num_events := r.num_events
    regd := [] }

/-- One registry operation. -/
inductive RegOp where
  | add (fd : Nat)
  | modify (fd : Nat)
  | remove (fd : Nat)
  | teardown
  deriving DecidableEq

/-- Apply one registry operation. -/
def runOp (r : Reg) : RegOp → Reg
  | RegOp.add fd => (event_add r fd).2
  | RegOp.modify fd => (event_modify r fd).2
  | RegOp.remove fd => (event_remove r fd).2
  | RegOp.teardown => event_teardown r

/-- Run a sequence of registry operations from the zero-initialised registry. -/
def runOps (ops : List RegOp) : Reg := ops.foldl runOp regInit

/-- Number of slots in the polled range (below max_idx) holding a live
descriptor (fd >= 0). -/
def liveCount (r : Reg) : Nat :=
  ((List.range r.max_idx).filter fun i => (0 : Int) ≤ r.pfds.getD i (-1)).length

/-- Number of slots in the polled range holding exactly the descriptor fd. -/
def slotCount (r : Reg) (fd : Nat) : Nat :=
  ((List.range r.max_idx).filter fun i => r.pfds.getD i (-1) = (fd : Int)).length

/-- A sequence of registry operations containing no teardown. -/
def noTeardown (ops : List RegOp) : Prop := RegOp.teardown ∉ ops

/-- Number of indices below `m` whose slot value in `l` (default -1 out of
range) satisfies `p`: the common shape of liveCount and slotCount. -/
def cntP (p : Int → Bool) (l : List Int) (m : Nat) : Nat :=
  ((List.range m).filter fun i => p (l.getD i (-1))).length

/-- Well-formedness of the registry: full-size slot array, bounded high-water
mark, num_events = live slots, no duplicate registrations, each registered fd
in exactly one polled slot, unregistered fds in none, and every polled slot
either dead or holding a non-negative fd. -/
def RegWF (r : Reg) : Prop :=
  r.pfds.length = MAX_EVENTS + 1 ∧
  r.max_idx ≤ MAX_EVENTS ∧
  r.num_events = liveCount r ∧
  r.regd.Nodup ∧
  (∀ fd ∈ r.regd, slotCount r fd = 1) ∧
  (∀ fd : Nat, fd ∉ r.regd → slotCount r fd = 0) ∧
  (∀ i, i < r.max_idx → r.pfds.getD i (-1) = -1 ∨ 0 ≤ r.pfds.getD i (-1))

/-! ## Theorems -/

/-- Claim C5 (code_bug evidence).  handle_accept classifies a failed accept(2)
with errno ECONNABORTED, EAGAIN or EWOULDBLOCK as PROXY_ERR, because its
transient-error test conjoins the three errno comparisons with logical-and
(proxy.c line 179), which no single errno value satisfies; accept_callback's
CLEANUP does free the context but passes PROXY_ERR through, and event_run_loop
exits on any non-zero callback status.  The claim says the returned status
keeps the listener and the loop running; it does not. -/
theorem C5_transient_accept_fatal :
    (accept_callback_fail ECONNABORTED).1 = PROXY_ERR ∧
    (accept_callback_fail ECONNABORTED).2 = true ∧
    (accept_callback_fail EAGAIN).1 = PROXY_ERR ∧
    (accept_callback_fail EWOULDBLOCK).1 = PROXY_ERR ∧
    PROXY_ERR ≠ PROXY_SUCCESS := by
  decide

/-- Claim C3 (code_bug evidence).  At the reachable receive state pt_len = 2,
pt_pos = 1 (a two-byte message of which one byte was already drained), a
request for 2 bytes makes copy_plaintext_to_buffer copy
read_sz = MIN(recv_pt_len, len) = 2 bytes — not the remaining
min(len, pt_len - pt_pos) = 1 — starting at offset 1, advance recv_pt_pos to
3 and trip its own ASSERT_RET(recv_pt_pos <= recv_pt_len), returning -1. -/
theorem C3_copy_overruns_message :
    (copy_plaintext_to_buffer
        { netnacl_init 0 with
            hdr_bytes_recvd := hdrSize
            ct_bytes_recvd := 34
            recv_hdr_len := 34
            recv_pt := 10 :: 20 :: List.replicate (RECV_CAP - 2) 0
            recv_pt_len := 2
            recv_pt_pos := 1 } 2).1 = -1 ∧
    (copy_plaintext_to_buffer
        { netnacl_init 0 with
            hdr_bytes_recvd := hdrSize
            ct_bytes_recvd := 34
            recv_hdr_len := 34
            recv_pt := 10 :: 20 :: List.replicate (RECV_CAP - 2) 0
            recv_pt_len := 2
            recv_pt_pos := 1 } 2).2.1 = [20, 0] ∧
    (copy_plaintext_to_buffer
        { netnacl_init 0 with
            hdr_bytes_recvd := hdrSize
            ct_bytes_recvd := 34
            recv_hdr_len := 34
            recv_pt := 10 :: 20 :: List.replicate (RECV_CAP - 2) 0
            recv_pt_len := 2
            recv_pt_pos := 1 } 2).2.2.recv_pt_pos = 3 ∧
    min 2 (2 - 1) = 1 := by
  decide

/-- Claim C10.  If the socket reports clean EOF on the next read while the
stream is inside a message — a partial header (hdr_bytes_recvd < sizeof(hdr_t))
or a partial ciphertext — netnacl_recv maps the inner NN_DISCONNECT to 0 at its
EXIT label, the same value as EOF at a message boundary; a truncated in-flight
message surfaces as clean end-of-stream, not as an error result. -/
theorem C10_eof_mid_message (nn : NN) (evs : List RecvEv) (len : Nat)
    (h : nn.hdr_bytes_recvd < hdrSize ∨
      (nn.hdr_bytes_recvd = hdrSize ∧ nn.ct_bytes_recvd < nn.recv_hdr_len)) :
    (netnacl_recv nn ⟨[], RecvEv.eof :: evs⟩ len).ret = 0 := by
  rcases h with hl | ⟨h26, hct⟩
  · have hh : recv_hdr nn ⟨[], RecvEv.eof :: evs⟩ = (NN_DISCONNECT, nn, ⟨[], evs⟩) := by
      rw [recv_hdr]
      simp [hl, rsockRecv]
    simp [netnacl_recv, hl, hh, nnExit, NN_DISCONNECT, NN_SUCCESS]
  · have hh : recv_ciphertext nn ⟨[], RecvEv.eof :: evs⟩ = (NN_DISCONNECT, nn, ⟨[], evs⟩) := by
      rw [recv_ciphertext]
      simp [hct, rsockRecv]
    have hns : ¬ nn.hdr_bytes_recvd < hdrSize := by rw [h26]; omega
    simp [netnacl_recv, hns, h26, hct, hh, nnExit, NN_DISCONNECT, NN_SUCCESS]

/-- Witness for C10 at a concrete mid-header state: three header bytes have
arrived, then the peer closes; netnacl_recv returns 0. -/
theorem C10_eof_mid_message_witness :
    (netnacl_recv { netnacl_init 0 with hdr_bytes_recvd := 3 } ⟨[], [RecvEv.eof]⟩
        MAX_MESSAGE_LEN).ret = 0 :=
  C10_eof_mid_message _ _ _ (Or.inl (by decide))

/-- The buf_recv loop, started at any fill level within capacity, returns the
status the ghost stop reason dictates: PROXY_SUCCESS when the buffer filled or
when would-block hit after at least one byte, PROXY_WOULD_BLOCK only for
would-block with zero bytes, PROXY_DISCONNECT for clean EOF, PROXY_ERR for any
other failure. -/
theorem buf_recv_loop_spec (evs : List RecvEv) (size : Nat) (hsz : size ≤ BUF_SIZ)
    (code : Int) (sz : Nat) (st : BStop)
    (h : buf_recv_loop evs size = some (code, sz, st)) :
    (st = BStop.full → code = PROXY_SUCCESS ∧ sz = BUF_SIZ) ∧
    (st = BStop.blocked →
      ((code = PROXY_SUCCESS ↔ 0 < sz) ∧ (code = PROXY_WOULD_BLOCK ↔ sz = 0))) ∧
    (st = BStop.eofStop → code = PROXY_DISCONNECT) ∧
    (st = BStop.errStop → code = PROXY_ERR) := by
  induction evs generalizing size with
  | nil =>
    rw [buf_recv_loop.eq_def] at h
    by_cases hf : BUF_SIZ ≤ size
    · simp only [hf, if_true, Option.some.injEq, Prod.mk.injEq] at h
      obtain ⟨rfl, rfl, rfl⟩ := h
      refine ⟨fun _ => ⟨rfl, by omega⟩, ?_, ?_, ?_⟩ <;> intro hst <;> simp_all
    · simp [hf] at h
  | cons e rest ih =>
    rw [buf_recv_loop.eq_def] at h
    by_cases hf : BUF_SIZ ≤ size
    · simp only [hf, if_true, Option.some.injEq, Prod.mk.injEq] at h
      obtain ⟨rfl, rfl, rfl⟩ := h
      refine ⟨fun _ => ⟨rfl, by omega⟩, ?_, ?_, ?_⟩ <;> intro hst <;> simp_all
    · cases e with
      | more bs =>
        by_cases hbs : bs = []
        · simp only [hf, if_false, hbs, if_true, Option.some.injEq, Prod.mk.injEq] at h
          obtain ⟨rfl, rfl, rfl⟩ := h
          refine ⟨?_, ?_, fun _ => rfl, ?_⟩ <;> intro hst <;> simp_all
        · simp only [hf, if_false, hbs, Option.some.injEq, Prod.mk.injEq] at h
          exact ih (size + min bs.length (BUF_SIZ - size)) (by omega) h
      | block =>
        by_cases h0 : size = 0
        · simp only [hf, if_false, h0, if_true, Option.some.injEq, Prod.mk.injEq] at h
          obtain ⟨rfl, rfl, rfl⟩ := h
          refine ⟨?_, fun _ => ⟨?_, ?_⟩, ?_, ?_⟩ <;> try intro hst
          · simp_all
          · constructor
            · intro hc; exact absurd hc (by decide)
            · omega
          · simp
          · simp_all
          · simp_all
        · simp only [hf, if_false, h0, Option.some.injEq, Prod.mk.injEq] at h
          obtain ⟨rfl, rfl, rfl⟩ := h
          refine ⟨?_, fun _ => ⟨?_, ?_⟩, ?_, ?_⟩ <;> try intro hst
          · simp_all
          · constructor
            · intro _; omega
            · intro _; rfl
          · constructor
            · intro hc; exact absurd hc (by decide)
            · intro hc; exact absurd hc h0
          · simp_all
          · simp_all
      | eof =>
        simp only [hf, if_false, Option.some.injEq, Prod.mk.injEq] at h
        obtain ⟨rfl, rfl, rfl⟩ := h
        refine ⟨?_, ?_, fun _ => rfl, ?_⟩ <;> intro hst <;> simp_all
      | fail =>
        simp only [hf, if_false, Option.some.injEq, Prod.mk.injEq] at h
        obtain ⟨rfl, rfl, rfl⟩ := h
        refine ⟨?_, ?_, ?_, fun _ => rfl⟩ <;> intro hst <;> simp_all

/-- Claim C9.  buf_recv under its precondition (size == 0, read_pos == 0):
whenever the loop completes, PROXY_SUCCESS is returned exactly when the buffer
filled to capacity or at least one byte was obtained before would-block;
PROXY_WOULD_BLOCK exactly for would-block with zero bytes; PROXY_DISCONNECT
for clean EOF; PROXY_ERR for any other failure. -/
theorem C9_buf_recv_spec (evs : List RecvEv) (code : Int) (sz : Nat) (st : BStop)
    (h : buf_recv evs = some (code, sz, st)) :
    (st = BStop.full → code = PROXY_SUCCESS ∧ sz = BUF_SIZ) ∧
    (st = BStop.blocked →
      ((code = PROXY_SUCCESS ↔ 0 < sz) ∧ (code = PROXY_WOULD_BLOCK ↔ sz = 0))) ∧
    (st = BStop.eofStop → code = PROXY_DISCONNECT) ∧
    (st = BStop.errStop → code = PROXY_ERR) :=
  buf_recv_loop_spec evs 0 (by omega) code sz st h

/-- Witness for C9: one 7-valued byte arrives, then the endpoint would-block;
buf_recv returns PROXY_SUCCESS with one byte buffered. -/
theorem C9_buf_recv_spec_witness :
    (BStop.blocked = BStop.full → PROXY_SUCCESS = PROXY_SUCCESS ∧ 1 = BUF_SIZ) ∧
    (BStop.blocked = BStop.blocked →
      ((PROXY_SUCCESS = PROXY_SUCCESS ↔ 0 < 1) ∧ (PROXY_SUCCESS = PROXY_WOULD_BLOCK ↔ 1 = 0))) ∧
    (BStop.blocked = BStop.eofStop → PROXY_SUCCESS = PROXY_DISCONNECT) ∧
    (BStop.blocked = BStop.errStop → PROXY_SUCCESS = PROXY_ERR) :=
  C9_buf_recv_spec [RecvEv.more [7], RecvEv.block] PROXY_SUCCESS 1 BStop.blocked (by decide)

/-- A write at offset 0 that fits replaces the front of the buffer. -/
theorem writeAt_zero (buf bs : List Nat) (h : bs.length ≤ buf.length) :
    writeAt buf 0 bs = bs ++ buf.drop bs.length := by
  simp [writeAt, List.take_of_length_le h]

/-- A fitting write into an all-zero buffer splits it around the bytes. -/
theorem writeAt_replicate_zero_mid (N off : Nat) (bs : List Nat) (h : off + bs.length ≤ N) :
    writeAt (List.replicate N 0) off bs =
      List.replicate off 0 ++ bs ++ List.replicate (N - off - bs.length) 0 := by
  have h1 : min off N = off := by omega
  have h2 : bs.length ≤ N - off := by omega
  have h3 : N - (off + bs.length) = N - off - bs.length := by omega
  rw [writeAt, List.length_replicate, List.take_replicate, List.drop_replicate, h1, h3,
    List.take_of_length_le h2]

/-- The model authenticator is 16 bytes. -/
theorem boxMac_length (key : Nat) (nonce : List Nat) :
    (boxMac key nonce).length = crypto_box_BOXZEROBYTES := by
  simp [boxMac]

/-- The model box keeps the padded plaintext's length, as the primitive does. -/
theorem box_length (key : Nat) (nonce m : List Nat) (h : crypto_box_ZEROBYTES ≤ m.length) :
    (crypto_box_afternm key nonce m).length = m.length := by
  simp [crypto_box_afternm, boxMac_length, crypto_box_BOXZEROBYTES, crypto_box_ZEROBYTES] at *
  omega

/-- Open inverts seal at the same key and nonce, the round-trip contract of the
authenticated box. -/
theorem open_box (key : Nat) (nonce c : List Nat) :
    crypto_box_open_afternm key nonce
        (crypto_box_afternm key nonce (List.replicate crypto_box_ZEROBYTES 0 ++ c)) =
      some (List.replicate crypto_box_ZEROBYTES 0 ++ c) := by
  have hdrop : (List.replicate crypto_box_ZEROBYTES (0 : Nat) ++ c).drop crypto_box_ZEROBYTES = c :=
    List.drop_left' (by simp)
  have hlen32 : (List.replicate crypto_box_BOXZEROBYTES (0 : Nat) ++ boxMac key nonce).length =
      crypto_box_ZEROBYTES := by
    simp [boxMac_length, crypto_box_BOXZEROBYTES, crypto_box_ZEROBYTES]
  rw [crypto_box_afternm, hdrop, crypto_box_open_afternm]
  rw [if_pos]
  · rw [List.drop_left' hlen32]
  · refine ⟨?_, ?_, ?_⟩
    · simp [boxMac_length, crypto_box_BOXZEROBYTES, crypto_box_ZEROBYTES]
    · rw [List.append_assoc]
      exact List.take_left' (by simp)
    · rw [List.append_assoc, List.drop_left' (by simp)]
      exact List.take_left' (boxMac_length key nonce)

/-- The nonce encrypt_plaintext draws is 24 bytes. -/
theorem nonceAt_length (f : Nat → Nat) (pos : Nat) :
    (nonceAt f pos).length = crypto_box_NONCEBYTES := by
  simp [nonceAt]

/-- Length of one framed wire message. -/
theorem mkMsg_length (key : Nat) (nonce c : List Nat) (hn : nonce.length = crypto_box_NONCEBYTES) :
    (mkMsg key nonce c).length = hdrSize + (c.length + crypto_box_ZEROBYTES) := by
  have hb : (crypto_box_afternm key nonce (List.replicate crypto_box_ZEROBYTES 0 ++ c)).length =
      c.length + crypto_box_ZEROBYTES := by
    rw [box_length key nonce _ (by simp)]
    simp [crypto_box_ZEROBYTES]
  simp [mkMsg, hb, hn, hdrSize, crypto_box_NONCEBYTES]
  omega

/-- encrypt_plaintext on a stream with no pending message assembles exactly one
framed message at the front of send_buf (the rest of the buffer keeps its
zeros), sets send_buf_len to its length, and advances the CSPRNG by one nonce. -/
theorem encrypt_plaintext_fresh (key : Nat) (p : List Nat) (f : Nat → Nat) (pos : Nat) :
    encrypt_plaintext (netnacl_init key) p f pos =
      ({ netnacl_init key with
          send_buf_len := min p.length MAX_MESSAGE_LEN + crypto_box_ZEROBYTES + hdrSize
          send_buf :=
            mkMsg key (nonceAt f pos) (p.take MAX_MESSAGE_LEN) ++
              List.replicate (RECV_CAP - (min p.length MAX_MESSAGE_LEN + crypto_box_ZEROBYTES)) 0 },
        pos + crypto_box_NONCEBYTES) := by
  have hptp : min p.length MAX_MESSAGE_LEN ≤ p.length := Nat.min_le_left _ _
  have hptM : min p.length MAX_MESSAGE_LEN ≤ MAX_MESSAGE_LEN := Nat.min_le_right _ _
  have htakep : p.take (min p.length MAX_MESSAGE_LEN) = p.take MAX_MESSAGE_LEN := by
    rcases Nat.le_total p.length MAX_MESSAGE_LEN with hle | hle
    · rw [Nat.min_eq_left hle, List.take_length, List.take_of_length_le hle]
    · rw [Nat.min_eq_right hle]
  have hlentake : (p.take MAX_MESSAGE_LEN).length = min p.length MAX_MESSAGE_LEN := by
    rw [List.length_take, Nat.min_comm]
  have hctarg :
      ((List.replicate crypto_box_ZEROBYTES 0 ++ p.take (min p.length MAX_MESSAGE_LEN)) ++
          List.replicate (MAX_MESSAGE_LEN - min p.length MAX_MESSAGE_LEN) 0).take
        (min p.length MAX_MESSAGE_LEN + crypto_box_ZEROBYTES) =
        List.replicate crypto_box_ZEROBYTES 0 ++ p.take MAX_MESSAGE_LEN := by
    rw [htakep]
    refine List.take_left' ?_
    simp [hlentake, crypto_box_ZEROBYTES]
  have hctlen :
      (crypto_box_afternm key (nonceAt f pos)
          (List.replicate crypto_box_ZEROBYTES 0 ++ p.take MAX_MESSAGE_LEN)).length =
        min p.length MAX_MESSAGE_LEN + crypto_box_ZEROBYTES := by
    rw [box_length key _ _ (by simp)]
    simp [hlentake, crypto_box_ZEROBYTES]
  have hsb :
      writeAt (List.replicate SEND_CAP 0) hdrSize
          (crypto_box_afternm key (nonceAt f pos)
            (List.replicate crypto_box_ZEROBYTES 0 ++ p.take MAX_MESSAGE_LEN)) =
        List.replicate hdrSize 0 ++
          crypto_box_afternm key (nonceAt f pos)
            (List.replicate crypto_box_ZEROBYTES 0 ++ p.take MAX_MESSAGE_LEN) ++
          List.replicate (RECV_CAP - (min p.length MAX_MESSAGE_LEN + crypto_box_ZEROBYTES)) 0 := by
    rw [writeAt_replicate_zero_mid _ _ _ (by rw [hctlen]; simp only [SEND_CAP, hdrSize,
      RECV_CAP, crypto_box_ZEROBYTES, MAX_MESSAGE_LEN]; omega)]
    rw [hctlen]
    have heq : SEND_CAP - hdrSize - (min p.length MAX_MESSAGE_LEN + crypto_box_ZEROBYTES) =
        RECV_CAP - (min p.length MAX_MESSAGE_LEN + crypto_box_ZEROBYTES) := by
      simp only [SEND_CAP, hdrSize, RECV_CAP, crypto_box_ZEROBYTES, MAX_MESSAGE_LEN]
      try omega
    rw [heq]
  simp only [encrypt_plaintext, netnacl_init, hctarg]
  have hni : List.map (fun i => f (pos + i) % 256) (List.range crypto_box_NONCEBYTES) =
      nonceAt f pos := rfl
  rw [hni, hsb]
  have hhdr :
      writeAt
          (List.replicate hdrSize 0 ++
            crypto_box_afternm key (nonceAt f pos)
              (List.replicate crypto_box_ZEROBYTES 0 ++ p.take MAX_MESSAGE_LEN) ++
            List.replicate (RECV_CAP - (min p.length MAX_MESSAGE_LEN + crypto_box_ZEROBYTES)) 0) 0
          ([(min p.length MAX_MESSAGE_LEN + crypto_box_ZEROBYTES) / 256 % 256,
              (min p.length MAX_MESSAGE_LEN + crypto_box_ZEROBYTES) % 256] ++ nonceAt f pos) =
        mkMsg key (nonceAt f pos) (p.take MAX_MESSAGE_LEN) ++
          List.replicate (RECV_CAP - (min p.length MAX_MESSAGE_LEN + crypto_box_ZEROBYTES)) 0 := by
    have hhl : ([(min p.length MAX_MESSAGE_LEN + crypto_box_ZEROBYTES) / 256 % 256,
        (min p.length MAX_MESSAGE_LEN + crypto_box_ZEROBYTES) % 256] ++ nonceAt f pos).length =
        hdrSize := by
      simp [nonceAt_length, hdrSize, crypto_box_NONCEBYTES]
    have hwz : ([(min p.length MAX_MESSAGE_LEN + crypto_box_ZEROBYTES) / 256 % 256,
        (min p.length MAX_MESSAGE_LEN + crypto_box_ZEROBYTES) % 256] ++ nonceAt f pos).length ≤
        (List.replicate hdrSize 0 ++
          crypto_box_afternm key (nonceAt f pos)
            (List.replicate crypto_box_ZEROBYTES 0 ++ p.take MAX_MESSAGE_LEN) ++
          List.replicate (RECV_CAP - (min p.length MAX_MESSAGE_LEN + crypto_box_ZEROBYTES)) 0).length := by
      rw [hhl]
      simp only [List.length_append, List.length_replicate]
      omega
    have hdrop26 :
        (List.replicate hdrSize (0 : Nat) ++
            crypto_box_afternm key (nonceAt f pos)
              (List.replicate crypto_box_ZEROBYTES 0 ++ p.take MAX_MESSAGE_LEN) ++
            List.replicate (RECV_CAP - (min p.length MAX_MESSAGE_LEN + crypto_box_ZEROBYTES))
              0).drop hdrSize =
          crypto_box_afternm key (nonceAt f pos)
              (List.replicate crypto_box_ZEROBYTES 0 ++ p.take MAX_MESSAGE_LEN) ++
            List.replicate (RECV_CAP - (min p.length MAX_MESSAGE_LEN + crypto_box_ZEROBYTES)) 0 := by
      rw [List.append_assoc]
      exact List.drop_left' (by simp [hdrSize])
    rw [writeAt_zero _ _ hwz, hhl, hdrop26, mkMsg, hlentake]
    simp [List.append_assoc]
  rw [hhdr]

/-- send_ciphertext over a socket that accepts everything drains the whole
pending message in one call: the wire receives send_buf's first send_buf_len
bytes, the drained prefix is zeroed, both counters reset, and the call reports
MIN(len, MAX_MESSAGE_LEN) plaintext bytes consumed. -/
theorem send_ciphertext_drain (nn : NN) (len : Nat) (hpos : nn.send_buf_pos = 0)
    (hlt : 0 < nn.send_buf_len) (hcap : nn.send_buf_len ≤ SEND_CAP)
    (hbuf : nn.send_buf_len ≤ nn.send_buf.length) :
    send_ciphertext nn len ⟨[SendEv.accept SEND_CAP]⟩ =
      ⟨Int.ofNat (min len MAX_MESSAGE_LEN),
        { nn with
            send_buf := List.replicate nn.send_buf_len 0 ++ nn.send_buf.drop nn.send_buf_len
            send_buf_len := 0
            send_buf_pos := 0 },
        ⟨[]⟩, nn.send_buf.take nn.send_buf_len⟩ := by
  have hmin0 : SEND_CAP ⊓ nn.send_buf_len = nn.send_buf_len := by omega
  rw [send_ciphertext]
  rw [dif_pos (by omega)]
  simp only [hpos, Nat.sub_zero, hmin0, Nat.zero_add]
  rw [send_ciphertext]
  rw [dif_neg (by simp)]
  have hw : writeAt nn.send_buf 0 (List.replicate nn.send_buf_len 0) =
      List.replicate nn.send_buf_len 0 ++ nn.send_buf.drop nn.send_buf_len := by
    rw [writeAt_zero _ _ (by simpa using hbuf)]
    simp
  simp [hw]

/-- netnacl_send on a stream with no pending message, over a socket that
accepts everything, emits exactly one framed message carrying the first
MIN(len, MAX_MESSAGE_LEN) caller bytes, returns that count, and leaves the
stream back in its initial state with the CSPRNG advanced by one nonce. -/
theorem netnacl_send_fresh (key : Nat) (f : Nat → Nat) (pos : Nat) (p : List Nat) :
    netnacl_send (netnacl_init key) p ⟨[SendEv.accept SEND_CAP]⟩ f pos =
      ⟨Int.ofNat (min p.length MAX_MESSAGE_LEN), netnacl_init key, ⟨[]⟩,
        mkMsg key (nonceAt f pos) (p.take MAX_MESSAGE_LEN), pos + crypto_box_NONCEBYTES⟩ := by
  have hlentake : (p.take MAX_MESSAGE_LEN).length = min p.length MAX_MESSAGE_LEN := by
    rw [List.length_take, Nat.min_comm]
  have hmlen : (mkMsg key (nonceAt f pos) (p.take MAX_MESSAGE_LEN)).length =
      min p.length MAX_MESSAGE_LEN + crypto_box_ZEROBYTES + hdrSize := by
    rw [mkMsg_length _ _ _ (nonceAt_length f pos), hlentake]
    omega
  have hptM : min p.length MAX_MESSAGE_LEN ≤ MAX_MESSAGE_LEN := Nat.min_le_right _ _
  have h0 : (netnacl_init key).send_buf_len = 0 := rfl
  have hps : (netnacl_init key).send_buf_pos = 0 := rfl
  have hgt : (0 : Nat) < min p.length MAX_MESSAGE_LEN + crypto_box_ZEROBYTES + hdrSize := by
    simp only [crypto_box_ZEROBYTES, hdrSize]
    omega
  simp only [netnacl_send]
  rw [encrypt_plaintext_fresh, if_pos h0]
  dsimp only
  rw [hps, if_pos hgt]
  rw [send_ciphertext_drain _ _ rfl hgt
    (by simp only [SEND_CAP, crypto_box_ZEROBYTES, hdrSize, MAX_MESSAGE_LEN] at *; omega)
    (by simp [hmlen])]
  have htk :
      ((mkMsg key (nonceAt f pos) (p.take MAX_MESSAGE_LEN) ++
          List.replicate (RECV_CAP - (min p.length MAX_MESSAGE_LEN + crypto_box_ZEROBYTES))
            0).take (min p.length MAX_MESSAGE_LEN + crypto_box_ZEROBYTES + hdrSize)) =
        mkMsg key (nonceAt f pos) (p.take MAX_MESSAGE_LEN) :=
    List.take_left' hmlen
  have hdk :
      ((mkMsg key (nonceAt f pos) (p.take MAX_MESSAGE_LEN) ++
          List.replicate (RECV_CAP - (min p.length MAX_MESSAGE_LEN + crypto_box_ZEROBYTES))
            0).drop (min p.length MAX_MESSAGE_LEN + crypto_box_ZEROBYTES + hdrSize)) =
        List.replicate (RECV_CAP - (min p.length MAX_MESSAGE_LEN + crypto_box_ZEROBYTES)) 0 :=
    List.drop_left' hmlen
  have hrep :
      List.replicate (min p.length MAX_MESSAGE_LEN + crypto_box_ZEROBYTES + hdrSize) (0 : Nat) ++
          List.replicate (RECV_CAP - (min p.length MAX_MESSAGE_LEN + crypto_box_ZEROBYTES)) 0 =
        List.replicate SEND_CAP 0 := by
    rw [← List.replicate_add]
    congr 1
    simp only [SEND_CAP, RECV_CAP, crypto_box_ZEROBYTES, hdrSize, MAX_MESSAGE_LEN] at *
    omega
  rw [htk, hdk, hrep]
  simp [netnacl_init]

/-- recv_hdr on a fresh stream whose socket already holds a whole message reads
the full 26-byte header in one recv, decodes the big-endian length and leaves
the ciphertext queued. -/
theorem recv_hdr_msg (key : Nat) (n c rest : List Nat) (hn : n.length = crypto_box_NONCEBYTES)
    (hc : c.length ≤ MAX_MESSAGE_LEN) :
    recv_hdr (netnacl_init key) ⟨mkMsg key n c ++ rest, []⟩ =
      (NN_SUCCESS,
        { netnacl_init key with
            hdr_bytes_recvd := hdrSize
            recv_hdr_raw := [(c.length + crypto_box_ZEROBYTES) / 256 % 256,
              (c.length + crypto_box_ZEROBYTES) % 256] ++ n
            recv_hdr_len := c.length + crypto_box_ZEROBYTES },
        ⟨crypto_box_afternm key n (List.replicate crypto_box_ZEROBYTES 0 ++ c) ++ rest, []⟩) := by
  have hhdrB : ([(c.length + crypto_box_ZEROBYTES) / 256 % 256,
      (c.length + crypto_box_ZEROBYTES) % 256] ++ n).length = hdrSize := by
    simp [hn, hdrSize, crypto_box_NONCEBYTES]
  have hmsg : mkMsg key n c ++ rest =
      ([(c.length + crypto_box_ZEROBYTES) / 256 % 256, (c.length + crypto_box_ZEROBYTES) % 256] ++
          n) ++
        (crypto_box_afternm key n (List.replicate crypto_box_ZEROBYTES 0 ++ c) ++ rest) := by
    simp [mkMsg, List.append_assoc]
  have hne : mkMsg key n c ++ rest ≠ [] := by simp [mkMsg]
  have hlt1 : (netnacl_init key).hdr_bytes_recvd < hdrSize := by norm_num [netnacl_init, hdrSize]
  rw [recv_hdr]
  rw [dif_pos hlt1]
  have hrr : rsockRecv ⟨mkMsg key n c ++ rest, []⟩ (hdrSize - (netnacl_init key).hdr_bytes_recvd) =
      (RRes.got ([(c.length + crypto_box_ZEROBYTES) / 256 % 256,
          (c.length + crypto_box_ZEROBYTES) % 256] ++ n),
        ⟨crypto_box_afternm key n (List.replicate crypto_box_ZEROBYTES 0 ++ c) ++ rest, []⟩) := by
    rw [rsockRecv, if_pos hne]
    have hwant : hdrSize - (netnacl_init key).hdr_bytes_recvd = hdrSize := rfl
    rw [hwant, hmsg, List.take_left' hhdrB, List.drop_left' hhdrB]
  rw [hrr]
  dsimp only
  have hbne : ([(c.length + crypto_box_ZEROBYTES) / 256 % 256,
      (c.length + crypto_box_ZEROBYTES) % 256] ++ n) ≠ ([] : List Nat) := by simp
  rw [if_neg hbne]
  rw [recv_hdr]
  rw [dif_neg (by norm_num [netnacl_init, hdrSize, hn, crypto_box_NONCEBYTES])]
  have hgd0 : ([(c.length + crypto_box_ZEROBYTES) / 256 % 256,
      (c.length + crypto_box_ZEROBYTES) % 256] ++ n).getD 0 0 =
      (c.length + crypto_box_ZEROBYTES) / 256 % 256 := rfl
  have hgd1 : ([(c.length + crypto_box_ZEROBYTES) / 256 % 256,
      (c.length + crypto_box_ZEROBYTES) % 256] ++ n).getD 1 0 =
      (c.length + crypto_box_ZEROBYTES) % 256 := rfl
  have hdec : (256 * ((c.length + crypto_box_ZEROBYTES) / 256 % 256) +
      (c.length + crypto_box_ZEROBYTES) % 256) % 65536 = c.length + crypto_box_ZEROBYTES := by
    simp only [crypto_box_ZEROBYTES, MAX_MESSAGE_LEN] at *
    omega
  simp [netnacl_init, writeAt_zero, hhdrB, oobAmount, hdrSize, hgd0, hgd1, hdec,
    crypto_box_NONCEBYTES, hn]


/-- recv_ciphertext with the whole declared ciphertext available reads it into
recv_ct in one recv, within bounds whenever the declared length fits. -/
theorem recv_ciphertext_full (nn : NN) (ct rest : List Nat) (h0 : nn.ct_bytes_recvd = 0)
    (hlen : ct.length = nn.recv_hdr_len) (hgt : 0 < nn.recv_hdr_len)
    (hcap : nn.recv_hdr_len ≤ RECV_CAP) (hct : nn.recv_ct = List.replicate RECV_CAP 0) :
    recv_ciphertext nn ⟨ct ++ rest, []⟩ =
      (NN_SUCCESS,
        { nn with
            ct_bytes_recvd := nn.recv_hdr_len
            recv_ct := ct ++ List.replicate (RECV_CAP - nn.recv_hdr_len) 0 },
        ⟨rest, []⟩) := by
  have hcne : ct ≠ [] := by
    intro h
    rw [h] at hlen
    simp at hlen
    omega
  have hne : ct ++ rest ≠ [] := by simp [hcne]
  rw [recv_ciphertext]
  rw [dif_pos (by omega)]
  have hrr : rsockRecv ⟨ct ++ rest, []⟩ (nn.recv_hdr_len - nn.ct_bytes_recvd) =
      (RRes.got ct, ⟨rest, []⟩) := by
    rw [rsockRecv, if_pos hne]
    rw [h0, Nat.sub_zero, List.take_left' hlen, List.drop_left' hlen]
  rw [hrr]
  dsimp only
  rw [if_neg hcne]
  have hwz : writeAt nn.recv_ct 0 ct = ct ++ List.replicate (RECV_CAP - nn.recv_hdr_len) 0 := by
    have hle : ct.length ≤ (List.replicate RECV_CAP (0 : Nat)).length := by
      rw [List.length_replicate, hlen]
      exact hcap
    rw [hct, writeAt_zero _ _ hle, List.drop_replicate, hlen]
  have hoob : oobAmount RECV_CAP 0 nn.recv_hdr_len = 0 := by
    simp only [oobAmount]
    omega
  rw [recv_ciphertext]
  rw [dif_neg (by simp [h0, hlen])]
  simp [hwz, hoob, h0, hlen]

/-- decrypt_ciphertext on a correctly received message authenticates, strips
the 32-byte leading zero region and leaves the plaintext at the front of
recv_pt. -/
theorem decrypt_ciphertext_msg (nn : NN) (n c : List Nat)
    (hnonce : nonceOf nn = n)
    (hlen : nn.recv_hdr_len = c.length + crypto_box_ZEROBYTES)
    (hcap : nn.recv_hdr_len ≤ RECV_CAP)
    (hct : nn.recv_ct =
      crypto_box_afternm nn.sym_key n (List.replicate crypto_box_ZEROBYTES 0 ++ c) ++
        List.replicate (RECV_CAP - nn.recv_hdr_len) 0)
    (hpt : nn.recv_pt = List.replicate RECV_CAP 0)
    (hc4 : c.length ≤ MAX_MESSAGE_LEN) :
    decrypt_ciphertext nn =
      (NN_SUCCESS,
        { nn with
            recv_pt := c ++
              (((List.replicate crypto_box_ZEROBYTES 0 ++ c) ++
                  List.replicate (RECV_CAP - nn.recv_hdr_len) 0).drop c.length)
            recv_pt_len := c.length }) := by
  have hblen : (crypto_box_afternm nn.sym_key n
      (List.replicate crypto_box_ZEROBYTES 0 ++ c)).length = nn.recv_hdr_len := by
    rw [box_length _ _ _ (by simp)]
    simp only [List.length_append, List.length_replicate]
    omega
  have htk : nn.recv_ct.take nn.recv_hdr_len =
      crypto_box_afternm nn.sym_key n (List.replicate crypto_box_ZEROBYTES 0 ++ c) := by
    rw [hct, List.take_left' hblen]
  have hsc : (List.replicate crypto_box_ZEROBYTES (0 : Nat) ++ c).length ≤
      (List.replicate RECV_CAP (0 : Nat)).length := by
    simp only [List.length_append, List.length_replicate]
    have h1 : crypto_box_ZEROBYTES + c.length ≤ RECV_CAP := by
      simp only [RECV_CAP]
      omega
    exact h1
  have hwz : writeAt nn.recv_pt 0 (List.replicate crypto_box_ZEROBYTES 0 ++ c) =
      (List.replicate crypto_box_ZEROBYTES 0 ++ c) ++
        List.replicate (RECV_CAP - nn.recv_hdr_len) 0 := by
    rw [hpt, writeAt_zero _ _ hsc, List.drop_replicate]
    have h2 : RECV_CAP - (List.replicate crypto_box_ZEROBYTES (0 : Nat) ++ c).length =
        RECV_CAP - nn.recv_hdr_len := by
      simp only [List.length_append, List.length_replicate, hlen]
      omega
    rw [h2]
  have hptlen : (nn.recv_hdr_len + 65536 - crypto_box_ZEROBYTES) % 65536 = c.length := by
    simp only [hlen, crypto_box_ZEROBYTES, MAX_MESSAGE_LEN] at hc4 ⊢
    omega
  have hoob : oobAmount RECV_CAP 0 nn.recv_hdr_len = 0 := by
    simp only [oobAmount]
    omega
  rw [decrypt_ciphertext, htk, hnonce, open_box]
  have hdp : (((List.replicate crypto_box_ZEROBYTES 0 ++ c) ++
      List.replicate (RECV_CAP - nn.recv_hdr_len) 0) : List Nat).drop crypto_box_ZEROBYTES =
      c ++ List.replicate (RECV_CAP - nn.recv_hdr_len) 0 := by
    rw [List.append_assoc]
    exact List.drop_left' (by simp)
  have htc : ((c ++ List.replicate (RECV_CAP - nn.recv_hdr_len) 0) : List Nat).take c.length = c :=
    List.take_left' rfl
  simp only [hwz, hptlen, hoob, hdp, htc, Nat.add_zero]

/-- copy_plaintext_to_buffer with a request of at least the whole message
copies the plaintext, zeroes the three working buffers and resets every
receive counter. -/
theorem copy_full_drain (nn : NN) (c : List Nat) (hpos : nn.recv_pt_pos = 0)
    (hlen : nn.recv_pt_len = c.length) (hc : c.length ≤ MAX_MESSAGE_LEN)
    (t : List Nat) (hpt : nn.recv_pt = c ++ t) :
    copy_plaintext_to_buffer nn MAX_MESSAGE_LEN =
      (Int.ofNat c.length, c,
        { nn with
            recv_hdr_raw := List.replicate hdrSize 0
            recv_hdr_len := 0
            recv_pt := List.replicate RECV_CAP 0
            recv_ct := List.replicate RECV_CAP 0
            recv_pt_len := 0
            recv_pt_pos := 0
            hdr_bytes_recvd := 0
            ct_bytes_recvd := 0 }) := by
  have hmin2 : c.length ⊓ MAX_MESSAGE_LEN = c.length := by omega
  have hmod2 : c.length % 65536 = c.length := by
    simp only [MAX_MESSAGE_LEN] at hc
    omega
  have hout2 : List.take c.length (List.drop nn.recv_pt_pos nn.recv_pt) = c := by
    rw [hpos, List.drop_zero, hpt]
    exact List.take_left' rfl
  rw [copy_plaintext_to_buffer]
  have hout3 : List.take c.length nn.recv_pt = c := by
    rw [hpt]
    exact List.take_left' rfl
  simp only [hlen, hmin2, hpos, Nat.zero_add, hmod2, hout2]
  simp [hout3]


/-- netnacl_recv on a fresh stream whose socket holds one whole framed message
returns exactly its plaintext and leaves the stream back in its initial
state with the rest of the wire still queued. -/
theorem netnacl_recv_msg (key : Nat) (n c rest : List Nat)
    (hn : n.length = crypto_box_NONCEBYTES) (hc0 : c ≠ []) (hc : c.length ≤ MAX_MESSAGE_LEN) :
    netnacl_recv (netnacl_init key) ⟨mkMsg key n c ++ rest, []⟩ MAX_MESSAGE_LEN =
      ⟨Int.ofNat c.length, c, netnacl_init key, ⟨rest, []⟩⟩ := by
  have hcpos : 0 < c.length := List.length_pos.mpr hc0
  have hlt1 : (netnacl_init key).hdr_bytes_recvd < hdrSize := by norm_num [netnacl_init, hdrSize]
  simp only [netnacl_recv]
  rw [if_pos hlt1, recv_hdr_msg key n c rest hn hc]
  dsimp only
  rw [if_neg (by simp)]
  have hg2 : hdrSize = hdrSize ∧
      (netnacl_init key).ct_bytes_recvd < c.length + crypto_box_ZEROBYTES :=
    ⟨rfl, by norm_num [netnacl_init, crypto_box_ZEROBYTES]⟩
  rw [if_pos hg2]
  have hbl : (crypto_box_afternm key n (List.replicate crypto_box_ZEROBYTES 0 ++ c)).length =
      c.length + crypto_box_ZEROBYTES := by
    rw [box_length _ _ _ (by simp)]
    simp only [List.length_append, List.length_replicate]
    omega
  have hcap2 : c.length + crypto_box_ZEROBYTES ≤ RECV_CAP := by
    simp only [RECV_CAP, crypto_box_ZEROBYTES, MAX_MESSAGE_LEN] at hc ⊢
    omega
  have hg02 : (0 : Nat) < c.length + crypto_box_ZEROBYTES := by
    norm_num [crypto_box_ZEROBYTES]
  rw [recv_ciphertext_full _ _ _ rfl hbl hg02 hcap2 rfl]
  dsimp only
  rw [if_neg (by simp)]
  have hg3 : hdrSize = hdrSize ∧ (c.length + crypto_box_ZEROBYTES = c.length + crypto_box_ZEROBYTES) ∧
      (netnacl_init key).recv_pt_len = 0 :=
    ⟨rfl, rfl, rfl⟩
  rw [if_pos hg3]
  rw [decrypt_ciphertext_msg _ n c (by rfl) (by rfl) hcap2 (by rfl) (by rfl) hc]
  dsimp only
  rw [if_neg (by simp)]
  have hg4 : hdrSize = hdrSize ∧ (c.length + crypto_box_ZEROBYTES = c.length + crypto_box_ZEROBYTES) ∧
      (0 : Nat) < c.length :=
    ⟨rfl, rfl, hcpos⟩
  rw [if_pos hg4]
  rw [copy_full_drain _ c (by rfl) (by rfl) hc _ (by rfl)]
  have hne5 : (Int.ofNat c.length) ≠ NN_DISCONNECT := by
    simp [NN_DISCONNECT]
  simp only [nnExit]
  rw [if_neg hne5]
  simp [netnacl_init]

/-- netnacl_recv on a fresh stream with nothing to read reports would-block. -/
theorem netnacl_recv_idle (key : Nat) :
    netnacl_recv (netnacl_init key) ⟨[], []⟩ MAX_MESSAGE_LEN =
      ⟨NN_WOULD_BLOCK, [], netnacl_init key, ⟨[], []⟩⟩ := by
  have hlt1 : (netnacl_init key).hdr_bytes_recvd < hdrSize := by norm_num [netnacl_init, hdrSize]
  have hh : recv_hdr (netnacl_init key) ⟨[], []⟩ = (NN_WOULD_BLOCK, netnacl_init key, ⟨[], []⟩) := by
    rw [recv_hdr, dif_pos hlt1]
    have hrr : rsockRecv ⟨([] : List Nat), ([] : List RecvEv)⟩ (hdrSize - (netnacl_init key).hdr_bytes_recvd) =
        (RRes.block, ⟨[], []⟩) := by
      rw [rsockRecv]
      simp
    rw [hrr]
  simp only [netnacl_recv]
  rw [if_pos hlt1, hh]
  simp [nnExit, NN_WOULD_BLOCK, NN_SUCCESS, NN_DISCONNECT]

/-- The receive driver stops as soon as the socket has nothing to read. -/
theorem recvLoop_idle (fuel key : Nat) : recvLoop fuel (netnacl_init key) ⟨[], []⟩ = [] := by
  cases fuel with
  | zero => rfl
  | succ m =>
    simp only [recvLoop, netnacl_recv_idle]
    norm_num [NN_WOULD_BLOCK]

/-- The receive driver consumes one whole queued message per call. -/
theorem recvLoop_msg (fuel key : Nat) (n c rest : List Nat)
    (hn : n.length = crypto_box_NONCEBYTES) (hc0 : c ≠ []) (hc : c.length ≤ MAX_MESSAGE_LEN) :
    recvLoop (fuel + 1) (netnacl_init key) ⟨mkMsg key n c ++ rest, []⟩ =
      c ++ recvLoop fuel (netnacl_init key) ⟨rest, []⟩ := by
  have hcpos : 0 < c.length := List.length_pos.mpr hc0
  simp only [recvLoop, netnacl_recv_msg key n c rest hn hc0 hc]
  rw [if_pos (by simp only [Int.ofNat_eq_coe]; exact_mod_cast hcpos)]

/-- The send driver does nothing for an empty plaintext. -/
theorem sendLoop_nil (fuel key pos : Nat) (f : Nat → Nat) :
    sendLoop fuel (netnacl_init key) f pos [] = ([], []) := by
  cases fuel with
  | zero => rfl
  | succ m => simp [sendLoop]

/-- The send driver emits one message per call and recurses on the rest. -/
theorem sendLoop_step (fuel key pos : Nat) (f : Nat → Nat) (p : List Nat) (hp : p ≠ []) :
    sendLoop (fuel + 1) (netnacl_init key) f pos p =
      (mkMsg key (nonceAt f pos) (p.take MAX_MESSAGE_LEN) ++
          (sendLoop fuel (netnacl_init key) f (pos + crypto_box_NONCEBYTES)
            (p.drop MAX_MESSAGE_LEN)).1,
        (sendLoop fuel (netnacl_init key) f (pos + crypto_box_NONCEBYTES)
          (p.drop MAX_MESSAGE_LEN)).2) := by
  simp only [sendLoop]
  rw [if_neg hp, netnacl_send_fresh]
  have hdrop : p.drop (Int.ofNat (min p.length MAX_MESSAGE_LEN)).toNat = p.drop MAX_MESSAGE_LEN := by
    rw [show (Int.ofNat (p.length ⊓ MAX_MESSAGE_LEN)).toNat = p.length ⊓ MAX_MESSAGE_LEN from
      Int.toNat_ofNat _]
    rcases Nat.le_total p.length MAX_MESSAGE_LEN with h | h
    · rw [Nat.min_eq_left h, List.drop_length, List.drop_of_length_le h]
    · rw [Nat.min_eq_right h]
  dsimp only
  rw [hdrop]

/-- A nonempty plaintext needs one message plus those of its tail. -/
theorem numChunks_succ (p : List Nat) (hp : p ≠ []) :
    numChunks p.length = numChunks (p.drop MAX_MESSAGE_LEN).length + 1 := by
  have hpos : 0 < p.length := List.length_pos.mpr hp
  simp only [numChunks, List.length_drop, MAX_MESSAGE_LEN]
  omega

/-- Claim C1.  Round-trip of the framing layer: any plaintext P pushed through
netnacl_send (re-invoked until all of P is consumed, over a socket accepting
every byte) and drained on the other side through netnacl_recv with
full-message requests (re-invoked until it stops yielding bytes) arrives
intact: the sender consumes all of P and the concatenation of the bytes
netnacl_recv returns equals P. -/
theorem C1_framing_round_trip (key pos : Nat) (f : Nat → Nat) (P : List Nat) :
    (sendLoop (numChunks P.length) (netnacl_init key) f pos P).2 = [] ∧
    recvLoop (numChunks P.length + 1) (netnacl_init key)
      ⟨(sendLoop (numChunks P.length) (netnacl_init key) f pos P).1, []⟩ = P := by
  suffices h : ∀ (N : Nat) (p : List Nat) (pos : Nat), p.length ≤ N →
      (sendLoop (numChunks p.length) (netnacl_init key) f pos p).2 = [] ∧
      recvLoop (numChunks p.length + 1) (netnacl_init key)
        ⟨(sendLoop (numChunks p.length) (netnacl_init key) f pos p).1, []⟩ = p by
    exact h P.length P pos le_rfl
  intro N
  induction N with
  | zero =>
    intro p pos hp
    have hpe : p = [] := List.eq_nil_of_length_eq_zero (by omega)
    subst hpe
    refine ⟨by simp [numChunks, sendLoop], ?_⟩
    simp only [List.length_nil, numChunks, sendLoop_nil]
    exact recvLoop_idle _ _
  | succ N ih =>
    intro p pos hp
    by_cases hpe : p = []
    · subst hpe
      refine ⟨by simp [numChunks, sendLoop], ?_⟩
      simp only [List.length_nil, numChunks, sendLoop_nil]
      exact recvLoop_idle _ _
    · have hch := numChunks_succ p hpe
      have hdlen : (p.drop MAX_MESSAGE_LEN).length ≤ N := by
        have hpos : 0 < p.length := List.length_pos.mpr hpe
        simp only [List.length_drop, MAX_MESSAGE_LEN]
        simp only [MAX_MESSAGE_LEN] at *
        omega
      obtain ⟨ih1, ih2⟩ := ih (p.drop MAX_MESSAGE_LEN) (pos + crypto_box_NONCEBYTES) hdlen
      rw [hch, sendLoop_step _ _ _ _ _ hpe]
      have htne : p.take MAX_MESSAGE_LEN ≠ [] := by
        intro h
        have := congrArg List.length h
        simp only [List.length_take, List.length_nil] at this
        have hpos : 0 < p.length := List.length_pos.mpr hpe
        simp only [MAX_MESSAGE_LEN] at this
        omega
      have htlen : (p.take MAX_MESSAGE_LEN).length ≤ MAX_MESSAGE_LEN := by
        simp [List.length_take]
      refine ⟨ih1, ?_⟩
      rw [recvLoop_msg _ _ _ _ _ (nonceAt_length f pos) htne htlen, ih2,
        List.take_append_drop]

theorem wire_len_field (key pos : Nat) (f : Nat → Nat) (p : List Nat) :
    256 * ((netnacl_send (netnacl_init key) p ⟨[SendEv.accept SEND_CAP]⟩ f pos).wire.getD 0 0) +
        (netnacl_send (netnacl_init key) p ⟨[SendEv.accept SEND_CAP]⟩ f pos).wire.getD 1 0 =
      min p.length MAX_MESSAGE_LEN + crypto_box_ZEROBYTES := by
  rw [netnacl_send_fresh]
  have hlentake : (p.take MAX_MESSAGE_LEN).length = min p.length MAX_MESSAGE_LEN := by
    rw [List.length_take, Nat.min_comm]
  have h0 : (mkMsg key (nonceAt f pos) (p.take MAX_MESSAGE_LEN)).getD 0 0 =
      (min p.length MAX_MESSAGE_LEN + crypto_box_ZEROBYTES) / 256 % 256 := by
    rw [mkMsg, hlentake]
    rfl
  have h1 : (mkMsg key (nonceAt f pos) (p.take MAX_MESSAGE_LEN)).getD 1 0 =
      (min p.length MAX_MESSAGE_LEN + crypto_box_ZEROBYTES) % 256 := by
    rw [mkMsg, hlentake]
    rfl
  dsimp only
  rw [h0, h1]
  have hle : min p.length MAX_MESSAGE_LEN + crypto_box_ZEROBYTES ≤ 4128 := by
    simp only [MAX_MESSAGE_LEN, crypto_box_ZEROBYTES]
    omega
  simp only [MAX_MESSAGE_LEN, crypto_box_ZEROBYTES] at *
  omega

/-- Claim C4 counterexample.  Sending exactly 4096 plaintext bytes from a
fresh stream produces a wire message whose 16-bit big-endian header length
field is 4128 = 4096 + 32 (the ciphertext is as long as the zero-padded
plaintext), not 4096 + 16 as the claim states. -/
theorem C4_len_field_counterexample :
    256 * ((netnacl_send (netnacl_init 0) (List.replicate 4096 0) ⟨[SendEv.accept SEND_CAP]⟩
          (fun _ => 0) 0).wire.getD 0 0) +
        (netnacl_send (netnacl_init 0) (List.replicate 4096 0) ⟨[SendEv.accept SEND_CAP]⟩
          (fun _ => 0) 0).wire.getD 1 0 = 4128 ∧
    (4128 : Nat) ≠ 4096 + 16 := by
  constructor
  · rw [wire_len_field]
    simp only [List.length_replicate, MAX_MESSAGE_LEN, crypto_box_ZEROBYTES]
    omega
  · decide

/-- Claim C4 (amended).  Sending exactly 4096 bytes of plaintext through the
framed stream produces a single wire message — the whole 4154-byte frame is
emitted by the one call, which consumes all 4096 bytes — whose 16-bit
big-endian header length field equals 4096 + 32, the full ciphertext length
including the 16-byte leading zero region and the 16-byte authenticator. -/
theorem C4_len_field (key pos : Nat) (f : Nat → Nat) (p : List Nat)
    (hp : p.length = 4096) :
    256 * ((netnacl_send (netnacl_init key) p ⟨[SendEv.accept SEND_CAP]⟩ f pos).wire.getD 0 0) +
        (netnacl_send (netnacl_init key) p ⟨[SendEv.accept SEND_CAP]⟩ f pos).wire.getD 1 0 =
      4096 + 32 ∧
    (netnacl_send (netnacl_init key) p ⟨[SendEv.accept SEND_CAP]⟩ f pos).wire.length =
      hdrSize + (4096 + 32) ∧
    (netnacl_send (netnacl_init key) p ⟨[SendEv.accept SEND_CAP]⟩ f pos).ret = 4096 := by
  refine ⟨?_, ?_, ?_⟩
  · rw [wire_len_field]
    simp [hp, MAX_MESSAGE_LEN, crypto_box_ZEROBYTES]
  · rw [netnacl_send_fresh]
    dsimp only
    rw [mkMsg_length _ _ _ (nonceAt_length f pos)]
    simp [hp, List.length_take, MAX_MESSAGE_LEN, crypto_box_ZEROBYTES]
  · rw [netnacl_send_fresh]
    simp [hp, MAX_MESSAGE_LEN]

/-- Witness for C4 at the concrete all-zero 4096-byte plaintext. -/
theorem C4_len_field_witness :
    256 * ((netnacl_send (netnacl_init 1) (List.replicate 4096 7) ⟨[SendEv.accept SEND_CAP]⟩
          (fun i => i) 5).wire.getD 0 0) +
        (netnacl_send (netnacl_init 1) (List.replicate 4096 7) ⟨[SendEv.accept SEND_CAP]⟩
          (fun i => i) 5).wire.getD 1 0 = 4096 + 32 ∧
    (netnacl_send (netnacl_init 1) (List.replicate 4096 7) ⟨[SendEv.accept SEND_CAP]⟩
        (fun i => i) 5).wire.length = hdrSize + (4096 + 32) ∧
    (netnacl_send (netnacl_init 1) (List.replicate 4096 7) ⟨[SendEv.accept SEND_CAP]⟩
        (fun i => i) 5).ret = 4096 :=
  C4_len_field 1 5 (fun i => i) (List.replicate 4096 7) (by rw [List.length_replicate])

/-- recv_hdr on a fresh stream with a whole 26-byte header available reads it
in one recv and decodes its big-endian length field, whatever it declares. -/
theorem recv_hdr_generic (key : Nat) (hd rest : List Nat) (hh : hd.length = hdrSize) :
    recv_hdr (netnacl_init key) ⟨hd ++ rest, []⟩ =
      (NN_SUCCESS,
        { netnacl_init key with
            hdr_bytes_recvd := hdrSize
            recv_hdr_raw := hd
            recv_hdr_len := (256 * hd.getD 0 0 + hd.getD 1 0) % 65536 },
        ⟨rest, []⟩) := by
  have hne0 : hd ≠ [] := by
    intro h
    rw [h] at hh
    simp [hdrSize] at hh
  have hne : hd ++ rest ≠ [] := by simp [hne0]
  have hlt1 : (netnacl_init key).hdr_bytes_recvd < hdrSize := by norm_num [netnacl_init, hdrSize]
  rw [recv_hdr, dif_pos hlt1]
  have hrr : rsockRecv ⟨hd ++ rest, []⟩ (hdrSize - (netnacl_init key).hdr_bytes_recvd) =
      (RRes.got hd, ⟨rest, []⟩) := by
    rw [rsockRecv, if_pos hne]
    have hwant : hdrSize - (netnacl_init key).hdr_bytes_recvd = hdrSize := rfl
    rw [hwant, List.take_left' hh, List.drop_left' hh]
  rw [hrr]
  dsimp only
  rw [if_neg hne0]
  rw [recv_hdr]
  rw [dif_neg (by norm_num [netnacl_init, hdrSize, hh])]
  simp [netnacl_init, writeAt_zero, hh, oobAmount, hdrSize]

theorem recv_ciphertext_over (nn : NN) (ct rest : List Nat) (h0 : nn.ct_bytes_recvd = 0)
    (hlen : ct.length = nn.recv_hdr_len) (hgt : 0 < nn.recv_hdr_len) :
    recv_ciphertext nn ⟨ct ++ rest, []⟩ =
      (NN_SUCCESS,
        { nn with
            ct_bytes_recvd := nn.recv_hdr_len
            recv_ct := writeAt nn.recv_ct 0 ct
            ct_oob := nn.ct_oob + oobAmount RECV_CAP 0 nn.recv_hdr_len },
        ⟨rest, []⟩) := by
  have hcne : ct ≠ [] := by
    intro h
    rw [h] at hlen
    simp at hlen
    omega
  have hne : ct ++ rest ≠ [] := by simp [hcne]
  rw [recv_ciphertext, dif_pos (by omega)]
  have hrr : rsockRecv ⟨ct ++ rest, []⟩ (nn.recv_hdr_len - nn.ct_bytes_recvd) =
      (RRes.got ct, ⟨rest, []⟩) := by
    rw [rsockRecv, if_pos hne]
    rw [h0, Nat.sub_zero, List.take_left' hlen, List.drop_left' hlen]
  rw [hrr]
  dsimp only
  rw [if_neg hcne]
  rw [recv_ciphertext]
  rw [dif_neg (by simp [h0, hlen])]
  simp [h0, hlen]

theorem decrypt_ciphertext_bad (nn : NN) (k2 : Nat) (n2 c2 : List Nat)
    (hk : nn.sym_key = k2) (hn2 : nonceOf nn = n2) (hc2 : nn.recv_ct.take nn.recv_hdr_len = c2)
    (hopen : crypto_box_open_afternm k2 n2 c2 = none) :
    decrypt_ciphertext nn = (NN_CRYPTO_ERR, nn) := by
  rw [decrypt_ciphertext, hk, hn2, hc2, hopen]

/-- Claim C2.  The spec claims any invalid declared `len` is fatal before the
fixed 4128-byte recv_ct buffer can be overrun; the code never validates
recv_hdr.len, so a header declaring RECV_CAP < L ≤ 65535 makes recv_ciphertext
accumulate all L bytes, writing L - RECV_CAP of them out of bounds (ghost
counter ct_oob), before the decrypt even runs.  The call does fail (crypto
error), but only after the out-of-bounds writes have happened. -/
theorem C2_invalid_len_overflows_recv_ct (key L : Nat) (n ct rest : List Nat)
    (hn : n.length = crypto_box_NONCEBYTES) (hct : ct.length = L)
    (hbig : RECV_CAP < L) (hfit : L < 65536)
    (hmac : List.take crypto_box_BOXZEROBYTES ct ≠ List.replicate crypto_box_BOXZEROBYTES 0) :
    netnacl_recv (netnacl_init key) ⟨([L / 256 % 256, L % 256] ++ n) ++ (ct ++ rest), []⟩
        MAX_MESSAGE_LEN =
      ⟨NN_CRYPTO_ERR, [],
        { netnacl_init key with
            hdr_bytes_recvd := hdrSize
            recv_hdr_raw := [L / 256 % 256, L % 256] ++ n
            recv_hdr_len := L
            ct_bytes_recvd := L
            recv_ct := List.take RECV_CAP ct
            ct_oob := L - RECV_CAP },
        ⟨rest, []⟩⟩ ∧
      0 < L - RECV_CAP := by
  refine ⟨?_, Nat.sub_pos_of_lt hbig⟩
  have hhd : ([L / 256 % 256, L % 256] ++ n).length = hdrSize := by
    simp [hn, hdrSize, crypto_box_NONCEBYTES]
  have hgd0 : (([L / 256 % 256, L % 256] ++ n).getD 0 0) = L / 256 % 256 := rfl
  have hgd1 : (([L / 256 % 256, L % 256] ++ n).getD 1 0) = L % 256 := rfl
  have hdec : (256 * (L / 256 % 256) + L % 256) % 65536 = L := by omega
  have h0L : (0 : Nat) < L := lt_of_le_of_lt (Nat.zero_le _) hbig
  have hlt1 : (netnacl_init key).hdr_bytes_recvd < hdrSize := by norm_num [netnacl_init, hdrSize]
  have hwa : writeAt (List.replicate RECV_CAP 0) 0 ct = List.take RECV_CAP ct := by
    have h1 : RECV_CAP - ct.length = 0 := by
      simp only [RECV_CAP, crypto_box_ZEROBYTES, MAX_MESSAGE_LEN] at hbig ⊢
      omega
    rw [writeAt, List.drop_replicate]
    simp [h1]
  have htt : List.take L (List.take RECV_CAP ct) = List.take RECV_CAP ct := by
    rw [List.take_take]
    have h2 : L ⊓ RECV_CAP = RECV_CAP := by
      simp only [RECV_CAP, crypto_box_ZEROBYTES, MAX_MESSAGE_LEN] at hbig ⊢
      omega
    rw [h2]
  have hopen : crypto_box_open_afternm key n (List.take RECV_CAP ct) = none := by
    rw [crypto_box_open_afternm, if_neg]
    rintro ⟨-, h2, -⟩
    rw [List.take_take] at h2
    have h3 : crypto_box_BOXZEROBYTES ⊓ RECV_CAP = crypto_box_BOXZEROBYTES := by decide
    rw [h3] at h2
    exact hmac h2
  simp only [netnacl_recv]
  rw [if_pos hlt1, recv_hdr_generic key ([L / 256 % 256, L % 256] ++ n) (ct ++ rest) hhd]
  dsimp only
  rw [if_neg (by simp)]
  simp only [hgd0, hgd1, hdec]
  have hg2 : True ∧ (netnacl_init key).ct_bytes_recvd < L :=
    ⟨trivial, by norm_num [netnacl_init]; omega⟩
  rw [if_pos hg2]
  rw [recv_ciphertext_over _ ct rest (by rfl) hct (by exact h0L)]
  dsimp only
  rw [if_neg (by simp)]
  have hg3 : hdrSize = hdrSize ∧ L = L ∧ (netnacl_init key).recv_pt_len = 0 := ⟨rfl, rfl, rfl⟩
  rw [if_pos hg3]
  rw [decrypt_ciphertext_bad _ key n (List.take RECV_CAP ct) (by rfl) (by rfl)
    (by dsimp only [netnacl_init]; rw [hwa, htt]) hopen]
  dsimp only
  rw [if_pos (by decide)]
  simp only [nnExit]
  rw [if_neg (by decide)]
  simp [netnacl_init, oobAmount, hwa]

/-- Witness for C2: header declaring 4129 ciphertext bytes, one more than the
4128-byte buffer, followed by 4129 nonzero bytes. -/
theorem C2_invalid_len_overflows_recv_ct_witness :
    netnacl_recv (netnacl_init 0)
        ⟨([4129 / 256 % 256, 4129 % 256] ++ List.replicate 24 0) ++
          (List.replicate 4129 1 ++ []), []⟩ MAX_MESSAGE_LEN =
      ⟨NN_CRYPTO_ERR, [],
        { netnacl_init 0 with
            hdr_bytes_recvd := hdrSize
            recv_hdr_raw := [4129 / 256 % 256, 4129 % 256] ++ List.replicate 24 0
            recv_hdr_len := 4129
            ct_bytes_recvd := 4129
            recv_ct := List.take RECV_CAP (List.replicate 4129 1)
            ct_oob := 4129 - RECV_CAP },
        ⟨[], []⟩⟩ ∧
      0 < 4129 - RECV_CAP :=
  C2_invalid_len_overflows_recv_ct 0 4129 (List.replicate 24 0) (List.replicate 4129 1) []
    (by decide) (by rw [List.length_replicate]) (by decide) (by decide) (by decide)

/-- Everything send_ciphertext writes to the wire is a contiguous slice of the
pending buffer from send_buf_pos on, and it either leaves the pending message
untouched or fully drains and resets it. -/
theorem send_ciphertext_frame (evs : List SendEv) (nn : NN) (len : Nat) :
    ∃ t,
      (send_ciphertext nn len ⟨evs⟩).wire = (nn.send_buf.drop nn.send_buf_pos).take t ∧
      ((send_ciphertext nn len ⟨evs⟩).nn.send_buf = nn.send_buf ∧
          (send_ciphertext nn len ⟨evs⟩).nn.send_buf_len = nn.send_buf_len ∨
        (send_ciphertext nn len ⟨evs⟩).nn.send_buf_len = 0) := by
  induction evs generalizing nn with
  | nil =>
    rw [send_ciphertext]
    by_cases hp : nn.send_buf_pos < nn.send_buf_len
    · rw [dif_pos hp]
      exact ⟨0, by simp, Or.inl ⟨rfl, rfl⟩⟩
    · rw [dif_neg hp]
      exact ⟨0, by simp, Or.inr rfl⟩
  | cons e rest ih =>
    rw [send_ciphertext]
    by_cases hp : nn.send_buf_pos < nn.send_buf_len
    · rw [dif_pos hp]
      cases e with
      | block => exact ⟨0, by simp, Or.inl ⟨rfl, rfl⟩⟩
      | fail => exact ⟨0, by simp, Or.inl ⟨rfl, rfl⟩⟩
      | accept n =>
        dsimp only
        obtain ⟨t', hw, hst⟩ :=
          ih { nn with send_buf_pos := nn.send_buf_pos + min n (nn.send_buf_len - nn.send_buf_pos) }
        refine ⟨min n (nn.send_buf_len - nn.send_buf_pos) + t', ?_, ?_⟩
        · rw [hw]
          dsimp only
          rw [List.take_add, List.drop_drop]
        · rcases hst with ⟨h1, h2⟩ | h1
          · exact Or.inl ⟨h1, h2⟩
          · exact Or.inr h1
    · rw [dif_neg hp]
      exact ⟨0, by simp, Or.inr rfl⟩

/-- Claim C8.  At most one message is in flight per direction: while a pending
message is partially drained (send_buf_pos < send_buf_len), netnacl_send draws
no fresh nonce (the CSPRNG position is returned unchanged), everything it puts
on the wire is a contiguous slice of the already-assembled pending buffer
starting at send_buf_pos, and it leaves that buffer either untouched or fully
drained and reset — it never assembles a new message. -/
theorem C8_no_new_message_while_pending (nn : NN) (buf : List Nat) (sock : SSock)
    (f : Nat → Nat) (pos : Nat) (hpend : nn.send_buf_pos < nn.send_buf_len) :
    (netnacl_send nn buf sock f pos).rng = pos ∧
    ∃ t, (netnacl_send nn buf sock f pos).wire = (nn.send_buf.drop nn.send_buf_pos).take t ∧
      ((netnacl_send nn buf sock f pos).nn.send_buf = nn.send_buf ∧
          (netnacl_send nn buf sock f pos).nn.send_buf_len = nn.send_buf_len ∨
        (netnacl_send nn buf sock f pos).nn.send_buf_len = 0) := by
  have h0 : ¬nn.send_buf_len = 0 := by omega
  simp only [netnacl_send, if_neg h0]
  rw [if_pos hpend]
  dsimp only
  exact ⟨rfl, send_ciphertext_frame sock.evs nn buf.length⟩

/-- Witness for C8 at a stream with a 2-byte pending message, none of it yet
drained, over a socket accepting one byte. -/
theorem C8_no_new_message_while_pending_witness :
    (netnacl_send { netnacl_init 0 with send_buf_len := 2 } [5] ⟨[SendEv.accept 1]⟩
        (fun i => i) 7).rng = 7 ∧
    ∃ t, (netnacl_send { netnacl_init 0 with send_buf_len := 2 } [5] ⟨[SendEv.accept 1]⟩
        (fun i => i) 7).wire =
      (({ netnacl_init 0 with send_buf_len := 2 } : NN).send_buf.drop
        ({ netnacl_init 0 with send_buf_len := 2 } : NN).send_buf_pos).take t ∧
      ((netnacl_send { netnacl_init 0 with send_buf_len := 2 } [5] ⟨[SendEv.accept 1]⟩
          (fun i => i) 7).nn.send_buf = ({ netnacl_init 0 with send_buf_len := 2 } : NN).send_buf ∧
        (netnacl_send { netnacl_init 0 with send_buf_len := 2 } [5] ⟨[SendEv.accept 1]⟩
          (fun i => i) 7).nn.send_buf_len =
          ({ netnacl_init 0 with send_buf_len := 2 } : NN).send_buf_len ∨
        (netnacl_send { netnacl_init 0 with send_buf_len := 2 } [5] ⟨[SendEv.accept 1]⟩
          (fun i => i) 7).nn.send_buf_len = 0) :=
  C8_no_new_message_while_pending { netnacl_init 0 with send_buf_len := 2 } [5]
    ⟨[SendEv.accept 1]⟩ (fun i => i) 7 (by decide)

/-- Every reachable lifecycle state of one connection context is one of the
seven states of CStates. -/
theorem CReach_mem (c : CCtx) (h : CReach c) : c ∈ CStates := by
  induction h with
  | init => decide
  | step c c2 hr hs ih =>
    cases hs with
    | accept_immediate h =>
      simp [CStates, CInit] at ih
      rcases ih with rfl | rfl | rfl | rfl | rfl | rfl | rfl <;>
        first
        | exact absurd h (by decide)
        | decide
    | accept_pending h =>
      simp [CStates, CInit] at ih
      rcases ih with rfl | rfl | rfl | rfl | rfl | rfl | rfl <;>
        first
        | exact absurd h (by decide)
        | decide
    | pending_complete h =>
      simp [CStates, CInit] at ih
      rcases ih with rfl | rfl | rfl | rfl | rfl | rfl | rfl <;>
        first
        | exact absurd h (by decide)
        | decide
    | half_close h =>
      simp [CStates, CInit] at ih
      rcases ih with rfl | rfl | rfl | rfl | rfl | rfl | rfl <;>
        first
        | exact absurd h (by decide)
        | decide
    | conn_close h =>
      simp [CStates, CInit] at ih
      rcases ih with rfl | rfl | rfl | rfl | rfl | rfl | rfl <;>
        first
        | exact absurd h (by decide)
        | decide
    | teardown h =>
      simp [CStates, CInit] at ih
      rcases ih with rfl | rfl | rfl | rfl | rfl | rfl | rfl <;>
        first
        | exact absurd h (by decide)
        | decide

/-- Claim C6 counterexample.  Two reachable states violate the claim: after an
accept whose upstream connect is still in progress, the context is held by one
registry entry while ref is 0 (handle_accept never increments ref for the
pending-connect entry); and tearing the driver down over a half-closed
connection (one entry, ref still 2) runs free_connection once against ref = 2,
which only decrements — the context is freed zero times, not exactly once. -/
theorem C6_refcount_counterexample :
    (CReach ⟨CPhase.pending, 1, 0, 0, true⟩ ∧ (0 : Nat) ≠ 1) ∧
    (CReach ⟨CPhase.closed, 0, 1, 0, true⟩ ∧ (0 : Nat) ≠ 1) := by
  refine ⟨⟨?_, by decide⟩, ⟨?_, by decide⟩⟩
  · exact CReach.step _ _ CReach.init (CStep.accept_pending CInit rfl)
  · have h2 : CReach (add_connection_events { CInit with phase := CPhase.wired }) :=
      CReach.step _ _ CReach.init (CStep.accept_immediate CInit rfl)
    have h3 : CReach ⟨CPhase.halfclosed, 1, 2, 0, true⟩ :=
      CReach.step _ _ h2 (CStep.half_close _ rfl)
    exact CReach.step _ _ h3 (CStep.teardown _ (Or.inr (Or.inr rfl)))

/-- Claim C6 (amended).  In every reachable state of one connection context the
entries/ref relationship is phase-dependent, not an equality: a pending-connect
context is held by one entry with ref = 0, a wired one by two entries with
ref = 2, a half-closed one by one entry with ref = 2, and once every entry is
gone the context has been freed either exactly once (any close_connection path,
or teardown of a fully wired context) or exactly zero times (teardown of a
half-closed context, which leaks it with ref = 1). -/
theorem C6_refcount_invariant (c : CCtx) (h : CReach c) : CInv c = true := by
  have hm := CReach_mem c h
  simp [CStates, CInit] at hm
  rcases hm with rfl | rfl | rfl | rfl | rfl | rfl | rfl <;> decide

/-- Witness for C6 at the reachable pending-connect state. -/
theorem C6_refcount_invariant_witness : CInv ⟨CPhase.pending, 1, 0, 0, true⟩ = true :=
  C6_refcount_invariant _ (CReach.step _ _ CReach.init (CStep.accept_pending CInit rfl))

theorem liveCount_eq (r : Reg) :
    liveCount r = cntP (fun v => decide ((0 : Int) ≤ v)) r.pfds r.max_idx := rfl

theorem slotCount_eq (r : Reg) (fd : Nat) :
    slotCount r fd = cntP (fun v => decide (v = (fd : Int))) r.pfds r.max_idx := rfl

theorem getD_set_ne (l : List Int) (i0 i : Nat) (v d : Int) (h : i ≠ i0) :
    (l.set i0 v).getD i d = l.getD i d := by
  induction l generalizing i0 i with
  | nil => simp [List.set]
  | cons a t ih =>
    cases i0 with
    | zero =>
      cases i with
      | zero => omega
      | succ j => simp [List.set, List.getD]
    | succ j0 =>
      cases i with
      | zero => simp [List.set, List.getD]
      | succ j => simpa [List.set, List.getD] using ih j0 j (by omega)

theorem getD_set_self (l : List Int) (i0 : Nat) (v d : Int) (h : i0 < l.length) :
    (l.set i0 v).getD i0 d = v := by
  induction l generalizing i0 with
  | nil => simp at h
  | cons a t ih =>
    cases i0 with
    | zero => simp [List.set, List.getD]
    | succ j0 => simpa [List.set, List.getD] using ih j0 (by simpa using h)

theorem cntP_zero (p : Int → Bool) (l : List Int) : cntP p l 0 = 0 := rfl

theorem cntP_succ (p : Int → Bool) (l : List Int) (m : Nat) :
    cntP p l (m + 1) = cntP p l m + (if p (l.getD m (-1)) then 1 else 0) := by
  simp only [cntP, List.range_succ, List.filter_append, List.length_append]
  rcases hp : p (l.getD m (-1)) <;> simp only [List.getD, List.get?_eq_getElem?] at hp <;> simp [List.filter, hp]

theorem cntP_congr (p : Int → Bool) (l l2 : List Int) (m : Nat)
    (h : ∀ i, i < m → l.getD i (-1) = l2.getD i (-1)) :
    cntP p l m = cntP p l2 m := by
  simp only [cntP]
  rw [List.filter_congr]
  intro i hi
  rw [h i (List.mem_range.mp hi)]

theorem cntP_set (p : Int → Bool) (l : List Int) (m i0 : Nat) (v : Int)
    (h0 : i0 < m) (hl : i0 < l.length) :
    cntP p (l.set i0 v) m + (if p (l.getD i0 (-1)) then 1 else 0) =
      cntP p l m + (if p v then 1 else 0) := by
  induction m with
  | zero => omega
  | succ k ih =>
    rw [cntP_succ, cntP_succ]
    by_cases hik : i0 = k
    · subst hik
      have hc : cntP p (l.set i0 v) i0 = cntP p l i0 :=
        cntP_congr _ _ _ _ fun i hi => getD_set_ne l i0 i v (-1) (by omega)
      rw [hc, getD_set_self l i0 v (-1) hl]
      omega
    · have hne : (l.set i0 v).getD k (-1) = l.getD k (-1) :=
        getD_set_ne l i0 k v (-1) (by omega)
      have := ih (by omega)
      rw [hne]
      omega

theorem cntP_all_true (p : Int → Bool) (l : List Int) (m : Nat)
    (h : ∀ i, i < m → p (l.getD i (-1)) = true) :
    cntP p l m = m := by
  simp only [cntP]
  rw [List.filter_eq_self.mpr]
  · exact List.length_range m
  · intro i hi
    exact h i (List.mem_range.mp hi)

theorem cntP_all_false (p : Int → Bool) (l : List Int) (m : Nat)
    (h : ∀ i, i < m → p (l.getD i (-1)) = false) :
    cntP p l m = 0 := by
  simp only [cntP]
  rw [List.filter_eq_nil_iff.mpr]
  · rfl
  · intro i hi
    have hh := h i (List.mem_range.mp hi)
    simp only [List.getD, List.get?_eq_getElem?] at hh
    simp [hh]

theorem cntP_pos (p : Int → Bool) (l : List Int) (m i0 : Nat)
    (h0 : i0 < m) (hp : p (l.getD i0 (-1)) = true) : 0 < cntP p l m := by
  simp only [cntP]
  rw [List.length_pos]
  intro hnil
  have : i0 ∈ (List.range m).filter fun i => p (l.getD i (-1)) := by
    rw [List.mem_filter]
    exact ⟨List.mem_range.mpr h0, by simpa [List.getD] using hp⟩
  rw [hnil] at this
  exact absurd this (List.not_mem_nil i0)

theorem get_idx_none_iff (r : Reg) (efd : Nat) :
    get_idx_from_fd r efd = none ↔
      ∀ i, i < r.max_idx → r.pfds.getD i (-1) ≠ (efd : Int) := by
  simp [get_idx_from_fd, List.find?_eq_none, List.mem_range]

theorem get_idx_some_spec (r : Reg) (efd idx : Nat) (h : get_idx_from_fd r efd = some idx) :
    idx < r.max_idx ∧ r.pfds.getD idx (-1) = (efd : Int) := by
  simp only [get_idx_from_fd] at h
  refine ⟨List.mem_range.mp (List.mem_of_find?_eq_some h), ?_⟩
  simpa using List.find?_some h

theorem findDead_none_spec (r : Reg) (h : findDead r = none) :
    ∀ i, i < r.max_idx → r.pfds.getD i (-1) ≠ -1 := by
  simp only [findDead] at h
  rw [List.find?_eq_none] at h
  intro i hi
  simpa using h i (List.mem_range.mpr hi)

theorem findDead_some_spec (r : Reg) (idx : Nat) (h : findDead r = some idx) :
    idx < r.max_idx ∧ r.pfds.getD idx (-1) = -1 := by
  simp only [findDead] at h
  refine ⟨List.mem_range.mp (List.mem_of_find?_eq_some h), ?_⟩
  simpa using List.find?_some h

theorem event_add_WF (r : Reg) (efd : Nat) (hw : RegWF r) : RegWF (event_add r efd).2 := by
  obtain ⟨hlen, hmax, hnum, hnd, hone, hzero, hval⟩ := hw
  rw [event_add]
  by_cases hdup : (get_idx_from_fd r efd).isSome
  · rw [if_pos hdup]
    exact ⟨hlen, hmax, hnum, hnd, hone, hzero, hval⟩
  · rw [if_neg hdup]
    by_cases hfull : r.num_events = MAX_EVENTS
    · rw [if_pos hfull]
      exact ⟨hlen, hmax, hnum, hnd, hone, hzero, hval⟩
    · rw [if_neg hfull]
      have hnone : get_idx_from_fd r efd = none := Option.not_isSome_iff_eq_none.mp hdup
      have hfree : ∀ i, i < r.max_idx → r.pfds.getD i (-1) ≠ (efd : Int) :=
        (get_idx_none_iff r efd).mp hnone
      have hcnt0 : slotCount r efd = 0 := by
        rw [slotCount_eq]
        apply cntP_all_false
        intro i hi
        simpa using hfree i hi
      have hefd_not : efd ∉ r.regd := by
        intro hmem
        have := hone efd hmem
        omega
      have hnn : (0 : Int) ≤ (efd : Int) := by omega
      have hneg : ((-1 : Int) = (efd : Int)) = False := by
        simp only [eq_iff_iff, iff_false]
        omega
      cases hfd : findDead r with
      | some idx =>
        obtain ⟨hidx, hdead⟩ := findDead_some_spec r idx hfd
        have hil : idx < r.pfds.length := by omega
        simp only [hfd, Option.getD_some, Option.isSome_some, if_true]
        refine ⟨by simpa using hlen, hmax, ?_, List.nodup_cons.mpr ⟨hefd_not, hnd⟩, ?_, ?_, ?_⟩
        · rw [liveCount_eq] at hnum ⊢
          dsimp only
          have hs := cntP_set (fun v => decide ((0 : Int) ≤ v)) r.pfds r.max_idx idx
            (efd : Int) hidx hil
          rw [hdead] at hs
          simp only [decide_eq_true_eq] at hs
          rw [if_neg (by omega), if_pos hnn] at hs
          omega
        · intro fd hfd2
          rw [slotCount_eq]
          dsimp only
          have hs := cntP_set (fun v => decide (v = (fd : Int))) r.pfds r.max_idx idx
            (efd : Int) hidx hil
          rw [hdead] at hs
          simp only [decide_eq_true_eq] at hs
          rcases List.mem_cons.mp hfd2 with rfl | hfd3
          · rw [slotCount_eq] at hcnt0
            rw [if_neg (by omega), if_pos rfl] at hs
            omega
          · have hne : fd ≠ efd := fun he => hefd_not (he ▸ hfd3)
            have := hone fd hfd3
            rw [slotCount_eq] at this
            rw [if_neg (by omega), if_neg (by intro he; exact hne (by omega))] at hs
            omega
        · intro fd hfd2
          have hne : fd ≠ efd := fun he => hfd2 (he ▸ List.mem_cons_self efd r.regd)
          have hnot : fd ∉ r.regd := fun hm => hfd2 (List.mem_cons_of_mem efd hm)
          rw [slotCount_eq]
          dsimp only
          have hs := cntP_set (fun v => decide (v = (fd : Int))) r.pfds r.max_idx idx
            (efd : Int) hidx hil
          rw [hdead] at hs
          simp only [decide_eq_true_eq] at hs
          have := hzero fd hnot
          rw [slotCount_eq] at this
          rw [if_neg (by omega), if_neg (by intro he; exact hne (by omega))] at hs
          omega
        · intro i hi
          dsimp only at hi ⊢
          by_cases hii : i = idx
          · subst hii
            rw [getD_set_self r.pfds i (efd : Int) (-1) hil]
            omega
          · rw [getD_set_ne r.pfds idx i (efd : Int) (-1) hii]
            exact hval i hi
      | none =>
        have hallne : ∀ i, i < r.max_idx → r.pfds.getD i (-1) ≠ -1 := findDead_none_spec r hfd
        have halllive : ∀ i, i < r.max_idx → (0 : Int) ≤ r.pfds.getD i (-1) := by
          intro i hi
          rcases hval i hi with h | h
          · exact absurd h (hallne i hi)
          · exact h
        have hlive_full : liveCount r = r.max_idx := by
          rw [liveCount_eq]
          apply cntP_all_true
          intro i hi
          simpa using halllive i hi
        have hmaxlt : r.max_idx < MAX_EVENTS := by omega
        have hil : r.max_idx < r.pfds.length := by omega
        simp only [hfd, Option.getD_none, Option.isSome_none, Bool.false_eq_true, if_false]
        have hcongr : ∀ p : Int → Bool,
            cntP p (r.pfds.set r.max_idx (efd : Int)) r.max_idx = cntP p r.pfds r.max_idx :=
          fun p => cntP_congr p _ _ _ fun i hi =>
            getD_set_ne r.pfds r.max_idx i (efd : Int) (-1) (by omega)
        have hat : (r.pfds.set r.max_idx (efd : Int)).getD r.max_idx (-1) = (efd : Int) :=
          getD_set_self r.pfds r.max_idx (efd : Int) (-1) hil
        refine ⟨by simpa using hlen, by dsimp only; omega, ?_, List.nodup_cons.mpr ⟨hefd_not, hnd⟩, ?_, ?_, ?_⟩
        · rw [liveCount_eq]
          dsimp only
          rw [cntP_succ, hat, hcongr]
          rw [liveCount_eq] at hnum
          simp only [decide_eq_true_eq]
          rw [if_pos hnn]
          omega
        · intro fd hfd2
          rw [slotCount_eq]
          dsimp only
          rw [cntP_succ, hat, hcongr]
          rcases List.mem_cons.mp hfd2 with rfl | hfd3
          · rw [slotCount_eq] at hcnt0
            simp only [decide_eq_true_eq, eq_self_iff_true, if_true]
            omega
          · have hne : fd ≠ efd := fun he => hefd_not (he ▸ hfd3)
            have := hone fd hfd3
            rw [slotCount_eq] at this
            simp only [decide_eq_true_eq]
            rw [if_neg (by intro he; exact hne (by omega))]
            omega
        · intro fd hfd2
          have hne : fd ≠ efd := fun he => hfd2 (he ▸ List.mem_cons_self efd r.regd)
          have hnot : fd ∉ r.regd := fun hm => hfd2 (List.mem_cons_of_mem efd hm)
          rw [slotCount_eq]
          dsimp only
          rw [cntP_succ, hat, hcongr]
          have := hzero fd hnot
          rw [slotCount_eq] at this
          simp only [decide_eq_true_eq]
          rw [if_neg (by intro he; exact hne (by omega))]
          omega
        · intro i hi
          dsimp only at hi ⊢
          by_cases hii : i = r.max_idx
          · subst hii
            rw [hat]
            omega
          · rw [getD_set_ne r.pfds r.max_idx i (efd : Int) (-1) hii]
            exact hval i (by omega)

theorem event_modify_WF (r : Reg) (efd : Nat) (hw : RegWF r) : RegWF (event_modify r efd).2 := by
  obtain ⟨hlen, hmax, hnum, hnd, hone, hzero, hval⟩ := hw
  rw [event_modify]
  cases hg : get_idx_from_fd r efd with
  | none => exact ⟨hlen, hmax, hnum, hnd, hone, hzero, hval⟩
  | some idx =>
    obtain ⟨hidx, hat⟩ := get_idx_some_spec r efd idx hg
    have hil : idx < r.pfds.length := by omega
    dsimp only
    have hsame : ∀ p : Int → Bool,
        cntP p (r.pfds.set idx (efd : Int)) r.max_idx = cntP p r.pfds r.max_idx := by
      intro p
      have hs := cntP_set p r.pfds r.max_idx idx (efd : Int) hidx hil
      rw [hat] at hs
      omega
    refine ⟨by simpa using hlen, hmax, ?_, hnd, ?_, ?_, ?_⟩
    · rw [liveCount_eq]
      dsimp only
      rw [hsame]
      rw [liveCount_eq] at hnum
      exact hnum
    · intro fd hfd2
      rw [slotCount_eq]
      dsimp only
      rw [hsame]
      have := hone fd hfd2
      rw [slotCount_eq] at this
      exact this
    · intro fd hfd2
      rw [slotCount_eq]
      dsimp only
      rw [hsame]
      have := hzero fd hfd2
      rw [slotCount_eq] at this
      exact this
    · intro i hi
      dsimp only at hi ⊢
      by_cases hii : i = idx
      · subst hii
        rw [getD_set_self r.pfds i (efd : Int) (-1) hil]
        omega
      · rw [getD_set_ne r.pfds idx i (efd : Int) (-1) hii]
        exact hval i hi

theorem event_remove_WF (r : Reg) (efd : Nat) (hw : RegWF r) : RegWF (event_remove r efd).2 := by
  obtain ⟨hlen, hmax, hnum, hnd, hone, hzero, hval⟩ := hw
  rw [event_remove]
  cases hg : get_idx_from_fd r efd with
  | none => exact ⟨hlen, hmax, hnum, hnd, hone, hzero, hval⟩
  | some idx =>
    obtain ⟨hidx, hat⟩ := get_idx_some_spec r efd idx hg
    have hil : idx < r.pfds.length := by omega
    have hmem : efd ∈ r.regd := by
      by_contra hno
      have h0 := hzero efd hno
      rw [slotCount_eq] at h0
      have := cntP_pos (fun v => decide (v = (efd : Int))) r.pfds r.max_idx idx hidx
        (by simp [List.getD] at hat ⊢; simp [hat])
      omega
    have hsone := hone efd hmem
    rw [slotCount_eq] at hsone
    dsimp only
    by_cases hdec : idx = r.max_idx - 1
    · rw [if_pos hdec]
      have hm1 : r.max_idx = idx + 1 := by omega
      have hcongr : ∀ p : Int → Bool,
          cntP p (r.pfds.set idx (-1)) idx = cntP p r.pfds idx := by
        intro p
        exact cntP_congr p _ _ _ fun i hi => getD_set_ne r.pfds idx i (-1) (-1) (by omega)
      refine ⟨by simpa using hlen, by dsimp only; omega, ?_, List.Nodup.erase efd hnd, ?_, ?_, ?_⟩
      · rw [liveCount_eq]
        dsimp only
        rw [liveCount_eq] at hnum
        rw [hm1] at hnum
        rw [cntP_succ] at hnum
        rw [hat] at hnum
        simp only [decide_eq_true_eq] at hnum
        rw [if_pos (by omega)] at hnum
        rw [← hdec, hcongr]
        omega
      · intro fd hfd2
        have hfd3 : fd ≠ efd ∧ fd ∈ r.regd := (List.Nodup.mem_erase_iff hnd).mp hfd2
        have hcast : ((efd : Int) = (fd : Int)) = False := by
          simp only [eq_iff_iff, iff_false]
          intro he
          exact hfd3.1 (by omega)
        have h1 := hone fd hfd3.2
        rw [slotCount_eq] at h1
        rw [hm1, cntP_succ, hat] at h1
        rw [slotCount_eq]
        dsimp only
        rw [← hdec, hcongr]
        simp only [hcast] at h1
        simp at h1
        omega
      · intro fd hfd2
        rw [slotCount_eq]
        dsimp only
        rw [← hdec, hcongr]
        by_cases hfe : fd = efd
        · subst hfe
          rw [hm1, cntP_succ, hat] at hsone
          simp only [decide_eq_true_eq, eq_self_iff_true, if_true] at hsone
          omega
        · have hno : fd ∉ r.regd := by
            intro hm
            exact hfd2 ((List.Nodup.mem_erase_iff hnd).mpr ⟨hfe, hm⟩)
          have h0 := hzero fd hno
          rw [slotCount_eq] at h0
          rw [hm1, cntP_succ, hat] at h0
          omega
      · intro i hi
        dsimp only at hi ⊢
        rw [getD_set_ne r.pfds idx i (-1) (-1) (by omega)]
        exact hval i (by omega)
    · rw [if_neg hdec]
      refine ⟨by simpa using hlen, hmax, ?_, List.Nodup.erase efd hnd, ?_, ?_, ?_⟩
      · rw [liveCount_eq]
        dsimp only
        rw [liveCount_eq] at hnum
        have hs := cntP_set (fun v => decide ((0 : Int) ≤ v)) r.pfds r.max_idx idx (-1) hidx hil
        rw [hat] at hs
        simp only [decide_eq_true_eq] at hs
        rw [if_pos (by omega), if_neg (by omega)] at hs
        omega
      · intro fd hfd2
        have hfd3 : fd ≠ efd ∧ fd ∈ r.regd := (List.Nodup.mem_erase_iff hnd).mp hfd2
        have h1 := hone fd hfd3.2
        rw [slotCount_eq] at h1
        rw [slotCount_eq]
        dsimp only
        have hs := cntP_set (fun v => decide (v = (fd : Int))) r.pfds r.max_idx idx (-1) hidx hil
        rw [hat] at hs
        simp only [decide_eq_true_eq] at hs
        rw [if_neg (by intro he; exact hfd3.1 (by omega)), if_neg (by omega)] at hs
        omega
      · intro fd hfd2
        rw [slotCount_eq]
        dsimp only
        have hs := cntP_set (fun v => decide (v = (fd : Int))) r.pfds r.max_idx idx (-1) hidx hil
        simp only [decide_eq_true_eq] at hs
        rw [hat] at hs
        by_cases hfe : fd = efd
        · subst hfe
          rw [if_pos (by omega), if_neg (by omega)] at hs
          omega
        · have hno : fd ∉ r.regd := by
            intro hm
            exact hfd2 ((List.Nodup.mem_erase_iff hnd).mpr ⟨hfe, hm⟩)
          have h0 := hzero fd hno
          rw [slotCount_eq] at h0
          rw [if_neg (by intro he; exact hfe (by omega)), if_neg (by omega)] at hs
          omega
      · intro i hi
        dsimp only at hi ⊢
        by_cases hii : i = idx
        · subst hii
          rw [getD_set_self r.pfds i (-1) (-1) hil]
          omega
        · rw [getD_set_ne r.pfds idx i (-1) (-1) hii]
          exact hval i hi

theorem regInit_WF : RegWF regInit := by
  refine ⟨?_, by simp [regInit], rfl, List.nodup_nil, ?_, fun fd h => rfl, ?_⟩
  · show (List.replicate (MAX_EVENTS + 1) (0 : Int)).length = MAX_EVENTS + 1
    exact List.length_replicate _ _
  · intro fd h
    simp [regInit] at h
  · intro i hi
    simp [regInit] at hi

theorem runOp_WF (r : Reg) (op : RegOp) (hw : RegWF r) (hop : op ≠ RegOp.teardown) :
    RegWF (runOp r op) := by
  cases op with
  | add fd => exact event_add_WF r fd hw
  | modify fd => exact event_modify_WF r fd hw
  | remove fd => exact event_remove_WF r fd hw
  | teardown => exact absurd rfl hop

theorem foldl_runOp_WF (ops : List RegOp) : ∀ r : Reg, RegWF r →
    (∀ op ∈ ops, op ≠ RegOp.teardown) → RegWF (ops.foldl runOp r) := by
  induction ops with
  | nil => exact fun r hw _ => hw
  | cons op rest ih =>
    intro r hw hnt
    rw [List.foldl_cons]
    exact ih (runOp r op) (runOp_WF r op hw (hnt op (List.mem_cons_self op rest)))
      fun o ho => hnt o (List.mem_cons_of_mem op ho)

theorem runOps_WF (ops : List RegOp) (h : noTeardown ops) : RegWF (runOps ops) := by
  rw [runOps]
  exact foldl_runOp_WF ops regInit regInit_WF fun op ho he => h (he ▸ ho)

theorem event_teardown_live (r : Reg) : liveCount (event_teardown r) = 0 := by
  rw [liveCount_eq]
  apply cntP_all_false
  intro i hi
  simp only [event_teardown]
  by_cases hl : i < r.pfds.length
  · have hg : (((List.range r.pfds.length).map fun j =>
        if j < r.max_idx then (-1 : Int) else r.pfds.getD j (-1)).getD i (-1)) = -1 := by
      have hi2 : i < r.max_idx := hi
      simp [List.getD, List.get?_eq_getElem?, List.getElem?_map, List.getElem?_range hl, hi2]
    simp only [hg]
    rfl
  · have hg : (((List.range r.pfds.length).map fun j =>
        if j < r.max_idx then (-1 : Int) else r.pfds.getD j (-1)).getD i (-1)) = -1 := by
      simp only [List.getD, List.get?_eq_getElem?]
      rw [List.getElem?_eq_none (by simpa using hl)]
      rfl
    simp only [hg]
    rfl

theorem runOps_append_teardown (ops : List RegOp) :
    runOps (ops ++ [RegOp.teardown]) = event_teardown (runOps ops) := by
  rw [runOps, runOps, List.foldl_append]
  rfl

/-- Claim C7 counterexample.  Adding one descriptor and then tearing the
registry down leaves num_events at 1 while every slot is dead: event_teardown
clears the slots but resets neither num_events nor max_idx. -/
theorem C7_registry_counterexample :
    (runOps [RegOp.add 5, RegOp.teardown]).num_events = 1 ∧
    liveCount (runOps [RegOp.add 5, RegOp.teardown]) = 0 ∧ (1 : Nat) ≠ 0 := by
  refine ⟨by decide, ?_, by decide⟩
  rw [show ([RegOp.add 5, RegOp.teardown] : List RegOp) =
    [RegOp.add 5] ++ [RegOp.teardown] from rfl, runOps_append_teardown]
  exact event_teardown_live _

/-- Claim C7 (amended).  For every teardown-free sequence of registry
operations, each registered descriptor occupies exactly one slot below
max_idx and num_events equals the number of live slots; a final
event_teardown kills every slot (the live count drops to zero) but leaves
num_events and max_idx unchanged, so the claimed equality fails to survive
teardown. -/
theorem C7_registry_invariants (ops : List RegOp) :
    (noTeardown ops →
      (∀ fd ∈ (runOps ops).regd, slotCount (runOps ops) fd = 1) ∧
      (runOps ops).num_events = liveCount (runOps ops) ∧
      (runOps ops).max_idx ≤ MAX_EVENTS) ∧
    liveCount (runOps (ops ++ [RegOp.teardown])) = 0 ∧
    (runOps (ops ++ [RegOp.teardown])).num_events = (runOps ops).num_events ∧
    (runOps (ops ++ [RegOp.teardown])).max_idx = (runOps ops).max_idx := by
  refine ⟨?_, ?_, ?_, ?_⟩
  · intro h
    obtain ⟨hlen, hmax, hnum, hnd, hone, hzero, hval⟩ := runOps_WF ops h
    exact ⟨hone, hnum, hmax⟩
  · rw [runOps_append_teardown]
    exact event_teardown_live _
  · rw [runOps_append_teardown]
    rfl
  · rw [runOps_append_teardown]
    rfl

end NaclProxy
